import Mathlib

/-!
# Process formations of `empire` (`processes.go`)

A shallow embedding of the process-formation core: the Go maps it works on,
the `Process` record, the reconciliation `NewFormation`, the named resource
presets, the constraint parser and printer, the codecs of the identifier types
and of the command map, and the conversions between formations and process
rows, followed by the properties proved about them.

Conventions of the embedding.

* A Go map is a `GoMap`: the nil map or a table of entries. The order of the
  entries of a table is the order in which one `range` loop visits them, so a
  statement quantified over all tables covers every iteration order. Lookup
  takes the first entry with the key; a table whose keys are pairwise distinct
  (`GoMap.WellFormed`) is an actual Go map. Where a function ranges over a map
  that was built during the call, the order is a parameter, `order` or `range`,
  assumed to be a permutation of the entries.
* A pointer `*T` is an `Option T`, with `none` the nil pointer. Pointer
  identity is not modelled.
* A function that can panic returns an `Option`, with `none` the panic.
* A Go `error` is an `Option GoError`, with `none` the nil error.
* Go `int` values are `Int`; no arithmetic is performed on them here.
* A Go `string` and a `[]byte` are both sequences of bytes. A byte is written
  as a `Char`, so a `string` is a Lean `String` and a `[]byte` is a
  `List Char`; the conversions `string(b)` and `[]byte(s)` are `String.mk` and
  `String.data`.
-/

namespace Empire

/-! ## Go maps -/

/-- A Go map value: the nil map, or a table of entries in iteration order. -/
inductive GoMap (κ ν : Type) where
  | nil : GoMap κ ν
  | table (entries : List (κ × ν)) : GoMap κ ν
deriving DecidableEq, Repr

/-- First value stored under `x`, `none` when `x` is not a key. -/
def assocGet {κ ν : Type} [DecidableEq κ] : List (κ × ν) → κ → Option ν
  | [], _ => none
  | (k, v) :: rest, x => if x = k then some v else assocGet rest x

/-- The assignment `m[x] = w` on the entries of a non-nil map: overwrite the
entry of `x` when there is one, add a new entry otherwise. -/
def assocSet {κ ν : Type} [DecidableEq κ] : List (κ × ν) → κ → ν → List (κ × ν)
  | [], x, w => [(x, w)]
  | (k, v) :: rest, x, w =>
    if x = k then (k, w) :: rest else (k, v) :: assocSet rest x w

namespace GoMap

variable {κ ν : Type}

/-- The entries a `range` loop visits; none for the nil map. -/
def entries : GoMap κ ν → List (κ × ν)
  | nil => []
  | table es => es

/-- The lookup `v, found := m[k]`; a nil map has no key. -/
def get [DecidableEq κ] (m : GoMap κ ν) (k : κ) : Option ν :=
  assocGet m.entries k

/-- The keys of the map, in iteration order. -/
def keys (m : GoMap κ ν) : List κ :=
  m.entries.map Prod.fst

/-- The keys of a Go map are pairwise distinct. -/
def WellFormed (m : GoMap κ ν) : Prop :=
  m.keys.Nodup

instance [DecidableEq κ] (m : GoMap κ ν) : Decidable m.WellFormed := by
  unfold WellFormed
  infer_instance

end GoMap

/-! ## Data model -/

/-- Go `error` values, identified by their message. -/
abbrev GoError := String

/-- The Go type `string`. -/
abbrev GoString := String

/-- `type ProcessType string`. -/
abbrev ProcessType := String

/-- `type Command string`. -/
abbrev Command := String

/-- Modelled from the spec: the type `constraints.CPUShare` of
`pkg/constraints`, a relative weight, an integer. -/
abbrev constraints.CPUShare := Int

/-- Modelled from the spec: the type `constraints.Memory` of
`pkg/constraints`, a byte count. -/
abbrev constraints.Memory := Nat

/-- Modelled from the spec: the struct `constraints.Constraints`, declared in
`pkg/constraints`, which `type Constraints constraints.Constraints` copies: a
pair of a CPU share and a memory size. Equality is structural. -/
structure Constraints where
  CPUShare : constraints.CPUShare
  Memory : constraints.Memory
deriving DecidableEq, Repr

/-- Modelled from the spec: the byte-size constant `MB` of `pkg/bytesize`,
one mebibyte. -/
def MB : Nat := 2 ^ 20

/-- Modelled from the spec: the byte-size constant `GB` of `pkg/bytesize`,
one gibibyte. -/
def GB : Nat := 2 ^ 30

def Constraints1X : Constraints := ⟨256, 512 * MB⟩

def Constraints2X : Constraints := ⟨512, 1 * GB⟩

def ConstraintsPX : Constraints := ⟨1024, 6 * GB⟩

/-- The table `NamedConstraints`, in its declared order. -/
def NamedConstraints : GoMap String Constraints :=
  GoMap.table [("1X", Constraints1X), ("2X", Constraints2X), ("PX", ConstraintsPX)]

def DefaultConstraints : Constraints := Constraints1X

/-- `type ProcessQuantityMap map[ProcessType]int`. -/
abbrev ProcessQuantityMap := GoMap ProcessType Int

def DefaultQuantities : ProcessQuantityMap :=
  GoMap.table [("web", 1)]

/-- The struct `Process`; its field `Type` is written `Type_`, `Type` being
reserved. -/
structure Process where
  ReleaseID : String
  ID : String
  Type_ : ProcessType
  Quantity : Int
  Command : Command
  Port : Int
  Constraints : Constraints
deriving DecidableEq, Repr

/-- `NewProcess`: the fields not named in the literal take their zero value,
and a type missing from `DefaultQuantities` reads as quantity `0`. -/
def NewProcess (t : ProcessType) (cmd : Command) : Process where
  ReleaseID := ""
  ID := ""
  Type_ := t
  Quantity := (DefaultQuantities.get t).getD 0
  Command := cmd
  Port := 0
  Constraints := DefaultConstraints

/-- `type CommandMap map[ProcessType]Command`. -/
abbrev CommandMap := GoMap ProcessType Command

/-- `type Formation map[ProcessType]*Process`. -/
abbrev Formation := GoMap ProcessType (Option Process)

/-- Every entry of the formation points to a process: no key holds a nil
pointer. -/
def Formation.NoNilEntry (f : Formation) : Prop :=
  ∀ e ∈ f.entries, e.2 ≠ none

instance (f : Formation) : Decidable f.NoNilEntry := by
  unfold Formation.NoNilEntry
  infer_instance

/-! ## Reconciliation -/

/-- One iteration of the loop of `NewFormation` for the pair `(t, cmd)`:
`none` is the panic of reading `existing.Quantity` through a nil pointer. -/
def NewFormation.body (f : Formation) (processes : List (ProcessType × Option Process))
    (t : ProcessType) (cmd : Command) : Option (List (ProcessType × Option Process)) :=
  let p := NewProcess t cmd
  match f.get t with
  | some existing =>
    match existing with
    | none => none
    | some e =>
      some (assocSet processes t
        (some { p with Quantity := e.Quantity, Constraints := e.Constraints }))
  | none => some (assocSet processes t (some p))

/-- The loop `for t, cmd := range cm` of `NewFormation`, over the pairs still
to visit and the map `processes` built so far. -/
def NewFormation.loop (f : Formation) :
    List (ProcessType × Command) → List (ProcessType × Option Process) →
      Option (List (ProcessType × Option Process))
  | [], processes => some processes
  | (t, cmd) :: rest, processes =>
    match NewFormation.body f processes t cmd with
    | none => none
    | some processes1 => NewFormation.loop f rest processes1

/-- `NewFormation`: `processes` starts as the empty map `make(Formation)`. -/
def NewFormation (f : Formation) (cm : CommandMap) : Option Formation :=
  (NewFormation.loop f cm.entries []).map GoMap.table

/-- The process the loop of `NewFormation` stores for the pair `(t, cmd)` when
it does not panic: a new process, with the quantity and constraints of the
prior process of type `t` when there is one. -/
def NewFormation.entry (f : Formation) (t : ProcessType) (cmd : Command) : Process :=
  match f.get t with
  | some (some e) =>
    { NewProcess t cmd with Quantity := e.Quantity, Constraints := e.Constraints }
  | _ => NewProcess t cmd

/-- The map the loop of `NewFormation` builds from `processes` over the pairs
still to visit when no iteration panics. -/
def NewFormation.built (f : Formation) :
    List (ProcessType × Command) → List (ProcessType × Option Process) →
      List (ProcessType × Option Process)
  | [], processes => processes
  | (t, cmd) :: rest, processes =>
    NewFormation.built f rest (assocSet processes t (some (NewFormation.entry f t cmd)))

/-- A prior formation with operator-set scale: three `web` processes of size
2X running an older command, and one `clock` process. -/
def priorExample : Formation :=
  GoMap.table
    [("web", some ⟨"r1", "p1", "web", 3, "./old-web", 8080, Constraints2X⟩),
     ("clock", some ⟨"r1", "p2", "clock", 1, "./clock", 0, Constraints1X⟩)]

/-- The command map of a release declaring `web` and `worker`. -/
def commandsExample : CommandMap :=
  GoMap.table [("web", "./web"), ("worker", "./worker")]

/-! ## Decimal numerals -/

/-- The verb `%d` on a Go `int`: decimal digits, with a minus sign when
negative. -/
def formatInt : Int → List Char
  | Int.ofNat n => Nat.toDigits 10 n
  | Int.negSucc n => '-' :: Nat.toDigits 10 (n + 1)

/-- Value of a decimal digit character. -/
def digitValue (c : Char) : Option Nat :=
  if c.isDigit then some (c.toNat - 48) else none

/-- Reads decimal digits left to right onto the accumulator `acc`; `none` at
the first character that is not a digit. -/
def readDigits : List Char → Nat → Option Nat
  | [], acc => some acc
  | c :: cs, acc =>
    match digitValue c with
    | none => none
    | some d => readDigits cs (acc * 10 + d)

/-- A natural number written as one or more decimal digits. -/
def readNat : List Char → Option Nat
  | [] => none
  | c :: cs => readDigits (c :: cs) 0

/-- An integer written as decimal digits with an optional minus sign. -/
def readInt : List Char → Option Int
  | [] => none
  | c :: cs =>
    if c = '-' then (readNat cs).map (fun n => - (n : Int))
    else (readNat (c :: cs)).map (fun n => (n : Int))

/-! ## Constraints: the generic parser -/

/-- Splits at the first colon: the text before it and the text after it. -/
def splitColon : List Char → Option (List Char × List Char)
  | [] => none
  | c :: cs =>
    if c = ':' then some ([], cs)
    else (splitColon cs).map (fun ab => (c :: ab.1, ab.2))

/-- Modelled from the spec: the byte-size conversion table of the unit
suffixes the spec names, binary multiples; no suffix is a count of bytes. -/
def unitMultiplier : List Char → Option Nat
  | [] => some 1
  | ['K', 'B'] => some (2 ^ 10)
  | ['M', 'B'] => some MB
  | ['G', 'B'] => some GB
  | _ => none

/-- Modelled from the spec: a size literal, decimal digits followed by a unit
of the conversion table. -/
def readSize (cs : List Char) : Option Nat :=
  match readNat (cs.takeWhile Char.isDigit) with
  | none => none
  | some n =>
    match unitMultiplier (cs.dropWhile Char.isDigit) with
    | none => none
    | some k => some (n * k)

/-- Modelled from the spec: the error of a malformed constraints spec. -/
def constraints.ErrInvalidConstraint : GoError := "invalid constraints format"

/-- Modelled from the spec: the function `constraints.Parse` of
`pkg/constraints`, which is not part of the sources at hand. It reads
`<integer-cpu-share>:<size-with-unit>`: an integer, a colon and a size
literal; the unit of the size literal may be left out, the spec re-parsing the
rendering `<cpuShare>:<memoryBytes>`. Anything else is a format error, returned
with the zero `Constraints`. -/
def constraints.Parse (s : String) : Constraints × Option GoError :=
  match splitColon s.data with
  | none => (⟨0, 0⟩, some constraints.ErrInvalidConstraint)
  | some (a, b) =>
    match readInt a, readSize b with
    | some cpu, some mem => (⟨cpu, mem⟩, none)
    | _, _ => (⟨0, 0⟩, some constraints.ErrInvalidConstraint)

/-! ## Constraints: presets, parsing and rendering -/

/-- `parseConstraints`, with the generic parser `constraints.Parse` it calls
as the parameter `parse`. The result is the Go pair `(*Constraints, error)`. -/
def parseConstraints (parse : String → Constraints × Option GoError) (con : String) :
    Option Constraints × Option GoError :=
  if con = "" then (none, none)
  else
    match NamedConstraints.get con with
    | some n => (some n, none)
    | none =>
      match parse con with
      | (_, some err) => (none, some err)
      | (c, none) => (some c, none)

/-- Modelled from the spec: the verb `%s` on a `constraints.Memory`, its
decimal byte count. -/
def constraints.Memory.String (m : constraints.Memory) : List Char :=
  Nat.toDigits 10 m

/-- The loop of `Constraints.String` over the entries of `NamedConstraints` in
the order `order`: the name of the first entry equal to `c`. -/
def Constraints.String.search (c : Constraints) : List (String × Constraints) → Option String
  | [] => none
  | (n, constraint) :: rest =>
    if c = constraint then some n else Constraints.String.search c rest

/-- `Constraints.String`, where `order` lists the entries of `NamedConstraints`
in the order in which this call of `range` visits them. The fall-through is
`fmt.Sprintf("%d:%s", c.CPUShare, c.Memory)`. -/
def Constraints.String (order : List (String × Constraints)) (c : Constraints) : String :=
  match Constraints.String.search c order with
  | some n => n
  | none => ⟨formatInt c.CPUShare ++ ':' :: constraints.Memory.String c.Memory⟩

/-- `Constraints.UnmarshalJSON` on the receiver `c`: the new value of the
receiver and the error. The decoder `json.Unmarshal(b, &s)` of the standard
library is the parameter `unmarshal`, giving the string `s` after the call and
the error; `parse` is the generic parser of `parseConstraints`. -/
def Constraints.UnmarshalJSON (unmarshal : List Char → GoString × Option GoError)
    (parse : GoString → Constraints × Option GoError) (c : Constraints) (b : List Char) :
    Constraints × Option GoError :=
  match unmarshal b with
  | (_, some err) => (c, some err)
  | (s, none) =>
    match parseConstraints parse s with
    | (_, some err) => (c, some err)
    | (some cc, none) => (cc, none)
    | (none, none) => (c, none)

/-! ## Codecs of the identifier types -/

/-- A Go value behind `interface{}`, as the persistence layer hands it to a
`Scan` method or receives it from a `Value` method: nil, a byte slice, a
string, an integer or a boolean. -/
inductive GoValue where
  | nil : GoValue
  | bytes (b : List Char) : GoValue
  | string (s : GoString) : GoValue
  | int64 (i : Int) : GoValue
  | bool (b : Bool) : GoValue
deriving DecidableEq, Repr

/-- `ProcessType.Scan` on a receiver pointing to the destination `p`: the new
value of the destination and the error. Only a byte slice passes the type
assertion `src.([]byte)`. -/
def ProcessType.Scan (p : ProcessType) (src : GoValue) : ProcessType × Option GoError :=
  match src with
  | GoValue.bytes b => (String.mk b, none)
  | _ => (p, none)

/-- `ProcessType.Value`. -/
def ProcessType.Value (p : ProcessType) : GoValue × Option GoError :=
  (GoValue.string p, none)

/-- `Command.Scan` on a receiver pointing to the destination `c`. -/
def Command.Scan (c : Command) (src : GoValue) : Command × Option GoError :=
  match src with
  | GoValue.bytes b => (String.mk b, none)
  | _ => (c, none)

/-- `Command.Value`. -/
def Command.Value (c : Command) : GoValue × Option GoError :=
  (GoValue.string c, none)

/-! ## Formations and process rows -/

/-- The loop of `newFormation` over the rows still to visit and the map `f`
built so far; `none` is the panic of reading `pp.Type` through a nil pointer. -/
def newFormation.loop :
    List (Option Process) → List (ProcessType × Option Process) →
      Option (List (ProcessType × Option Process))
  | [], f => some f
  | none :: _, _ => none
  | some pp :: rest, f => newFormation.loop rest (assocSet f pp.Type_ (some pp))

/-- `newFormation`, from a slice of process pointers. -/
def newFormation (p : List (Option Process)) : Option Formation :=
  (newFormation.loop p []).map GoMap.table

/-- The loop of `Formation.Processes` over the entries still to visit,
appending to the slice `processes`. -/
def Formation.Processes.loop :
    List (ProcessType × Option Process) → List (Option Process) → List (Option Process)
  | [], processes => processes
  | (_, p) :: rest, processes => Formation.Processes.loop rest (processes ++ [p])

/-- `Formation.Processes`; the nil slice and the empty slice are both the
empty list. -/
def Formation.Processes (f : Formation) : List (Option Process) :=
  Formation.Processes.loop f.entries []

/-- The invariant of a formation: every entry `(t, p)` points to a process
whose `Type` is `t`. -/
def Formation.Invariant (f : Formation) : Prop :=
  ∀ e ∈ f.entries, e.2.map (fun p => p.Type_) = some e.1

instance (f : Formation) : Decidable f.Invariant := by
  unfold Formation.Invariant
  infer_instance

/-- Every row points to a process: the slice holds no nil pointer. -/
def NoNilRow (rows : List (Option Process)) : Prop :=
  ∀ r ∈ rows, r ≠ none

instance (rows : List (Option Process)) : Decidable (NoNilRow rows) := by
  unfold NoNilRow
  infer_instance

/-- The map the loop of `newFormation` builds from `f` over the rows still to
visit when no row is nil; a nil row is passed over. -/
def newFormation.built :
    List (Option Process) → List (ProcessType × Option Process) →
      List (ProcessType × Option Process)
  | [], f => f
  | none :: rest, f => newFormation.built rest f
  | some pp :: rest, f => newFormation.built rest (assocSet f pp.Type_ (some pp))

/-- Rows as the store returns them, with two rows of type `web`. -/
def rowsExample : List (Option Process) :=
  [some ⟨"r1", "p1", "web", 1, "./web", 0, Constraints1X⟩,
   some ⟨"r1", "p2", "worker", 2, "./worker", 0, Constraints2X⟩,
   some ⟨"r1", "p3", "web", 5, "./web -p", 0, ConstraintsPX⟩]

/-- A formation that breaks the invariant: the entry of `web` points to a
process of type `worker`. -/
def mislabelledExample : Formation :=
  GoMap.table [("web", some ⟨"r1", "p1", "worker", 1, "./worker", 0, Constraints1X⟩)]

/-- A prior formation that agrees with `priorExample` on the quantity and the
constraints of `web` and on the absence of `worker`, and differs everywhere
else. -/
def priorVariant : Formation :=
  GoMap.table
    [("cron", some ⟨"r7", "p9", "cron", 4, "./cron", 9000, ConstraintsPX⟩),
     ("web", some ⟨"r7", "p8", "www", 3, "./other-web", 5000, Constraints2X⟩)]

/-! ## The JSON decoder of the standard library -/

/-- White space of JSON: space, tab, line feed and carriage return. -/
def json.isSpace (c : Char) : Bool :=
  c = ' ' ∨ c = Char.ofNat 9 ∨ c = Char.ofNat 10 ∨ c = Char.ofNat 13

/-- Value of a hexadecimal digit. -/
def json.hexValue (c : Char) : Option Nat :=
  if 48 ≤ c.toNat ∧ c.toNat ≤ 57 then some (c.toNat - 48)
  else if 97 ≤ c.toNat ∧ c.toNat ≤ 102 then some (c.toNat - 87)
  else if 65 ≤ c.toNat ∧ c.toNat ≤ 70 then some (c.toNat - 55)
  else none

/-- `getu4` of `encoding/json`: the code unit of an escape `\uXXXX` at the
head of `s`, `none` when `s` does not start with such an escape. -/
def json.getu4 (s : List Char) : Option Nat :=
  match s with
  | e :: u :: a :: b :: c :: d :: _ =>
    if e = Char.ofNat 92 ∧ u = 'u' then
      match json.hexValue a, json.hexValue b, json.hexValue c, json.hexValue d with
      | some x, some y, some z, some w => some (((x * 16 + y) * 16 + z) * 16 + w)
      | _, _, _, _ => none
    else none
  | _ => none

/-- `utf8.EncodeRune`: the bytes of the UTF-8 encoding of the rune `r`; a
surrogate or a value past U+10FFFF is encoded as U+FFFD. -/
def utf8.EncodeRune (r : Nat) : List Char :=
  if r < 128 then [Char.ofNat r]
  else if r < 2048 then [Char.ofNat (192 + r / 64), Char.ofNat (128 + r % 64)]
  else if (55296 ≤ r ∧ r < 57344) ∨ 1114111 < r then
    [Char.ofNat 239, Char.ofNat 191, Char.ofNat 189]
  else if r < 65536 then
    [Char.ofNat (224 + r / 4096), Char.ofNat (128 + r / 64 % 64), Char.ofNat (128 + r % 64)]
  else
    [Char.ofNat (240 + r / 262144), Char.ofNat (128 + r / 4096 % 64),
      Char.ofNat (128 + r / 64 % 64), Char.ofNat (128 + r % 64)]

/-- The byte `c` lies between `lo` and `hi`. -/
def utf8.inRange (c : Char) (lo hi : Nat) : Bool :=
  lo ≤ c.toNat ∧ c.toNat ≤ hi

/-- The size that `utf8.DecodeRune` reports for a well-formed sequence of two
to four bytes at the head of `s`; `none` when the head of `s` is not the start
of a well-formed sequence, where `DecodeRune` reports `RuneError` and size 1. -/
def utf8.sequenceLength (s : List Char) : Option Nat :=
  match s with
  | [] => none
  | c0 :: rest =>
    if utf8.inRange c0 194 223 then
      match rest with
      | c1 :: _ => if utf8.inRange c1 128 191 then some 2 else none
      | _ => none
    else if utf8.inRange c0 224 239 then
      match rest with
      | c1 :: c2 :: _ =>
        if utf8.inRange c1 (if c0.toNat = 224 then 160 else 128)
            (if c0.toNat = 237 then 159 else 191) ∧ utf8.inRange c2 128 191 then some 3
        else none
      | _ => none
    else if utf8.inRange c0 240 244 then
      match rest with
      | c1 :: c2 :: c3 :: _ =>
        if utf8.inRange c1 (if c0.toNat = 240 then 144 else 128)
            (if c0.toNat = 244 then 143 else 191) ∧ utf8.inRange c2 128 191 ∧
            utf8.inRange c3 128 191 then some 4
        else none
      | _ => none
    else none

/-- The content of a JSON string literal, read from the byte after the
opening double quote: `acc` holds the bytes decoded so far and `fuel` bounds
the number of items. The closing double quote must be the last byte. A byte
below 32, an unknown escape and a missing closing quote are syntax errors
(`none`). Escapes are replaced by what they stand for, a `\uXXXX` escape by the
UTF-8 encoding of its rune, two escapes that form a surrogate pair by the
encoding of the rune of the pair, a surrogate alone by U+FFFD; bytes that are
not well-formed UTF-8 are replaced by U+FFFD, as `unquote` of `encoding/json`
does. -/
def json.unquote : Nat → List Char → List Char → Option (List Char)
  | 0, _, _ => none
  | fuel + 1, s, acc =>
    match s with
    | [] => none
    | c :: rest =>
      if c = Char.ofNat 34 then (if rest = [] then some acc else none)
      else if c = Char.ofNat 92 then
        match rest with
        | [] => none
        | e :: rest1 =>
          if e = Char.ofNat 34 ∨ e = Char.ofNat 92 ∨ e = '/' then
            json.unquote fuel rest1 (acc ++ [e])
          else if e = 'b' then json.unquote fuel rest1 (acc ++ [Char.ofNat 8])
          else if e = 'f' then json.unquote fuel rest1 (acc ++ [Char.ofNat 12])
          else if e = 'n' then json.unquote fuel rest1 (acc ++ [Char.ofNat 10])
          else if e = 'r' then json.unquote fuel rest1 (acc ++ [Char.ofNat 13])
          else if e = 't' then json.unquote fuel rest1 (acc ++ [Char.ofNat 9])
          else if e = 'u' then
            match json.getu4 s with
            | none => none
            | some rr =>
              if 55296 ≤ rr ∧ rr < 57344 then
                match json.getu4 (s.drop 6) with
                | some rr1 =>
                  if rr < 56320 ∧ 56320 ≤ rr1 ∧ rr1 < 57344 then
                    json.unquote fuel (s.drop 12)
                      (acc ++ utf8.EncodeRune ((rr - 55296) * 1024 + (rr1 - 56320) + 65536))
                  else json.unquote fuel (s.drop 6) (acc ++ utf8.EncodeRune 65533)
                | none => json.unquote fuel (s.drop 6) (acc ++ utf8.EncodeRune 65533)
              else json.unquote fuel (s.drop 6) (acc ++ utf8.EncodeRune rr)
          else none
      else if c.toNat < 32 then none
      else if c.toNat < 128 then json.unquote fuel rest (acc ++ [c])
      else
        match utf8.sequenceLength s with
        | some n => json.unquote fuel (s.drop n) (acc ++ s.take n)
        | none => json.unquote fuel rest (acc ++ utf8.EncodeRune 65533)

/-- The error of `json.Unmarshal` on an input that is neither `null` nor a
string literal; the texts of the errors of the library, which tell a syntax
error from a value of another type, are not modelled. -/
def json.errNotString : GoError :=
  "json: cannot unmarshal input into Go value of type string"

/-- The decoder `json.Unmarshal(b, &s)` of the Go standard library (package
`encoding/json`, not part of the sources at hand) for a string variable `s`
that holds the empty string, as the documentation of the package describes it:
the string `s` after the call and the error. White space around the value is
skipped; the value `null` has no effect on `s` and produces no error; a string
literal sets `s` to the text it stands for; every other input, a syntax error
or a JSON value of another type, leaves `s` as it was and is an error. -/
def json.Unmarshal (b : List Char) : GoString × Option GoError :=
  match ((b.dropWhile json.isSpace).reverse.dropWhile json.isSpace).reverse with
  | [] => ("", some json.errNotString)
  | c :: rest =>
    if c :: rest = ['n', 'u', 'l', 'l'] then ("", none)
    else if c = Char.ofNat 34 then
      match json.unquote (rest.length + 1) rest [] with
      | some t => (String.mk t, none)
      | none => ("", some json.errNotString)
    else ("", some json.errNotString)

/-! ## Codec of the command map -/

/-- The struct `sql.NullString` of the standard library: a string and the flag
that tells a present value from NULL; its field `String` is written `Str`. -/
structure sql.NullString where
  Str : GoString
  Valid : Bool
deriving DecidableEq, Repr

/-- The struct `hstore.Hstore`. -/
structure hstore.Hstore where
  Map : GoMap GoString sql.NullString
deriving DecidableEq, Repr

/-- The double quote character. -/
def hstore.quote : Char := Char.ofNat 34

/-- The backslash character. -/
def hstore.backslash : Char := Char.ofNat 92

/-- Modelled from the spec: the escaping of the hstore format, a backslash in
front of every backslash and of every double quote. -/
def hstore.escape : List Char → List Char
  | [] => []
  | c :: cs =>
    if c = hstore.backslash then hstore.backslash :: hstore.backslash :: hstore.escape cs
    else if c = hstore.quote then hstore.backslash :: hstore.quote :: hstore.escape cs
    else c :: hstore.escape cs

/-- Modelled from the spec: a key or a present value of the hstore format, the
escaped text between double quotes. -/
def hstore.hQuote (s : List Char) : List Char :=
  hstore.quote :: hstore.escape s ++ [hstore.quote]

/-- Modelled from the spec: a value of the hstore format, `NULL` when it is
not present. -/
def hstore.hQuoteNull (v : sql.NullString) : List Char :=
  if v.Valid then hstore.hQuote v.Str.data else ['N', 'U', 'L', 'L']

/-- Modelled from the spec: one pair of the hstore format, `"key"=>"value"`. -/
def hstore.part (e : GoString × sql.NullString) : List Char :=
  hstore.hQuote e.1.data ++ '=' :: '>' :: hstore.hQuoteNull e.2

/-- Modelled from the spec: the pairs of the hstore format, separated by
commas. -/
def hstore.join : List (List Char) → List Char
  | [] => []
  | [p] => p
  | p :: q :: rest => p ++ ',' :: hstore.join (q :: rest)

/-- Modelled from the spec: the encoder `Hstore.Value` of the persistence
layer (package `hstore` of `lib/pq`, not part of the sources at hand). A nil
map is the NULL value; otherwise the pairs are written in the order `range`
gives for the entries of the map. -/
def hstore.Hstore.Value
    (range : List (GoString × sql.NullString) → List (GoString × sql.NullString))
    (h : hstore.Hstore) : GoValue × Option GoError :=
  match h.Map with
  | GoMap.nil => (GoValue.nil, none)
  | GoMap.table es => (GoValue.bytes (hstore.join ((range es).map hstore.part)), none)

/-- The state of the decoder of the hstore format: the map read so far, the
key and the value being read, which of the two is being read (`onValue`), and
the flags for being inside double quotes, for having seen a double quote in
the current item, and for having just read a backslash. -/
structure hstore.ScanState where
  Map : List (GoString × sql.NullString)
  key : List Char
  val : List Char
  onValue : Bool
  inQuote : Bool
  didQuote : Bool
  sawSlash : Bool
deriving DecidableEq, Repr

/-- Adds a byte to the item being read. -/
def hstore.ScanState.push (st : hstore.ScanState) (b : Char) : hstore.ScanState :=
  if st.onValue then { st with val := st.val ++ [b] } else { st with key := st.key ++ [b] }

/-- Stores the pair that has been read: an unquoted `null`, in any case, is
the NULL value, every other value is present. -/
def hstore.ScanState.store (st : hstore.ScanState) : List (GoString × sql.NullString) :=
  if st.didQuote = false ∧ st.val.length = 4 ∧ st.val.map Char.toLower = ['n', 'u', 'l', 'l'] then
    assocSet st.Map (String.mk st.key) ⟨"", false⟩
  else assocSet st.Map (String.mk st.key) ⟨String.mk st.val, true⟩

/-- Modelled from the spec: the decoder of the hstore format on one byte. A
byte after a backslash is taken as it is; a double quote opens or closes a
quoted item; outside quotes blanks and `=` are passed over, `>` turns to the
value and a comma stores the pair. -/
def hstore.step (st : hstore.ScanState) (b : Char) : hstore.ScanState :=
  if st.sawSlash then { st.push b with sawSlash := false }
  else if b = hstore.backslash then { st with sawSlash := true }
  else if b = hstore.quote then { st with inQuote := !st.inQuote, didQuote := true }
  else if st.inQuote then st.push b
  else if b = ' ' ∨ b = Char.ofNat 9 ∨ b = Char.ofNat 10 ∨ b = Char.ofNat 13 then st
  else if b = '=' then st
  else if b = '>' then { st with onValue := true, didQuote := false }
  else if b = ',' then
    { st with Map := st.store, key := [], val := [], onValue := false }
  else st.push b

/-- The decoder of the hstore format over the bytes still to read. -/
def hstore.scanLoop : List Char → hstore.ScanState → hstore.ScanState
  | [], st => st
  | b :: rest, st => hstore.scanLoop rest (hstore.step st b)

/-- Modelled from the spec: the decoder `Hstore.Scan` of the persistence layer
(package `hstore` of `lib/pq`, not part of the sources at hand): the map read
and the error. A nil source is the nil map; a source that is no byte slice
fails the type assertion, a panic (`none`); the last pair is stored when the
source has two bytes or more. -/
def hstore.Hstore.Scan (src : GoValue) : Option (hstore.Hstore × Option GoError) :=
  match src with
  | GoValue.nil => some (⟨GoMap.nil⟩, none)
  | GoValue.bytes b =>
    let st := hstore.scanLoop b ⟨[], [], [], false, false, false, false⟩
    some (⟨GoMap.table (if 2 ≤ b.length then st.store else st.Map)⟩, none)
  | _ => none

/-- The loop of `CommandMap.Value` over the pairs still to visit and the map
`m` built so far: every command is stored as a present value. -/
def CommandMap.Value.loop :
    List (ProcessType × Command) → List (GoString × sql.NullString) →
      List (GoString × sql.NullString)
  | [], m => m
  | (k, v) :: rest, m => CommandMap.Value.loop rest (assocSet m k ⟨v, true⟩)

/-- `CommandMap.Value`; `range` is the order in which the encoder of the
persistence layer visits the map handed to it. -/
def CommandMap.Value
    (range : List (GoString × sql.NullString) → List (GoString × sql.NullString))
    (cm : CommandMap) : GoValue × Option GoError :=
  hstore.Hstore.Value range ⟨GoMap.table (CommandMap.Value.loop cm.entries [])⟩

/-- The loop of `CommandMap.Scan` over the decoded pairs still to visit and
the map `m` built so far. -/
def CommandMap.Scan.loop :
    List (GoString × sql.NullString) → List (ProcessType × Command) →
      List (ProcessType × Command)
  | [], m => m
  | (k, v) :: rest, m => CommandMap.Scan.loop rest (assocSet m k v.Str)

/-- `CommandMap.Scan` on a receiver pointing to the destination `cm`: the new
value of the destination and the error, `none` when the decoder panics;
`range` is the order in which the decoded map is visited. -/
def CommandMap.Scan
    (range : List (GoString × sql.NullString) → List (GoString × sql.NullString))
    (cm : CommandMap) (src : GoValue) : Option (CommandMap × Option GoError) :=
  match hstore.Hstore.Scan src with
  | none => none
  | some (_, some err) => some (cm, some err)
  | some (h, none) => some (GoMap.table (CommandMap.Scan.loop (range h.Map.entries) []), none)

/-- The pair the loop of `CommandMap.Value` stores for a pair of the command
map: the command as a present value. -/
def CommandMap.Value.pair (x : ProcessType × Command) : GoString × sql.NullString :=
  (x.1, ⟨x.2, true⟩)

/-- The pair the loop of `CommandMap.Scan` stores for a decoded pair. -/
def CommandMap.Scan.pair (x : GoString × sql.NullString) : ProcessType × Command :=
  (x.1, x.2.Str)

/-- A command map whose names and commands hold double quotes, backslashes,
commas, blanks and `=>`. -/
def quotedExample : CommandMap :=
  GoMap.table
    [("web", String.mk [hstore.quote, 'a', hstore.backslash, hstore.quote, ',', ' ', '=', '>']),
     (String.mk ['a', ',', hstore.quote, '=', '>', hstore.backslash], "NULL"),
     ("", "")]

/-! ## Lemmas on map entries -/

section Assoc

variable {κ ν : Type} [DecidableEq κ]

theorem assocGet_eq_none_iff (m : List (κ × ν)) (x : κ) :
    assocGet m x = none ↔ x ∉ m.map Prod.fst := by
  induction m with
  | nil => simp [assocGet]
  | cons e rest ih =>
    obtain ⟨k, v⟩ := e
    by_cases h : x = k
    · simp [assocGet, h]
    · simp [assocGet, h, ih]

theorem assocGet_mem (m : List (κ × ν)) (x : κ) (v : ν) (h : assocGet m x = some v) :
    (x, v) ∈ m := by
  induction m with
  | nil => simp [assocGet] at h
  | cons e rest ih =>
    obtain ⟨k, w⟩ := e
    by_cases hx : x = k
    · simp [assocGet, hx] at h
      simp [hx, h]
    · simp [assocGet, hx] at h
      exact List.mem_cons_of_mem _ (ih h)

theorem assocGet_of_mem_nodup (m : List (κ × ν)) (hm : (m.map Prod.fst).Nodup)
    (x : κ) (v : ν) (h : (x, v) ∈ m) : assocGet m x = some v := by
  induction m with
  | nil => simp at h
  | cons e rest ih =>
    obtain ⟨k, w⟩ := e
    simp only [List.map_cons, List.nodup_cons] at hm
    rcases List.mem_cons.1 h with h1 | h1
    · simp only [Prod.mk.injEq] at h1
      simp [assocGet, h1.1, h1.2]
    · have hne : x ≠ k := by
        rintro rfl
        exact hm.1 (List.mem_map.2 ⟨(x, v), h1, rfl⟩)
      simp [assocGet, hne, ih hm.2 h1]

theorem assocGet_assocSet_self (m : List (κ × ν)) (x : κ) (w : ν) :
    assocGet (assocSet m x w) x = some w := by
  induction m with
  | nil => simp [assocSet, assocGet]
  | cons e rest ih =>
    obtain ⟨k, v⟩ := e
    by_cases h : x = k
    · simp [assocSet, assocGet, h]
    · simp [assocSet, assocGet, h, ih]

theorem assocGet_assocSet_ne (m : List (κ × ν)) (x y : κ) (w : ν) (hxy : y ≠ x) :
    assocGet (assocSet m x w) y = assocGet m y := by
  induction m with
  | nil => simp [assocSet, assocGet, hxy]
  | cons e rest ih =>
    obtain ⟨k, v⟩ := e
    by_cases h : x = k
    · subst h
      simp [assocSet, assocGet, hxy]
    · by_cases h2 : y = k
      · simp [assocSet, assocGet, h, h2]
      · simp [assocSet, assocGet, h, h2, ih]

theorem mem_keys_assocSet (m : List (κ × ν)) (x y : κ) (w : ν) :
    y ∈ (assocSet m x w).map Prod.fst ↔ y = x ∨ y ∈ m.map Prod.fst := by
  induction m with
  | nil => simp [assocSet]
  | cons e rest ih =>
    obtain ⟨k, v⟩ := e
    by_cases h : x = k
    · subst h
      simp [assocSet]
    · simp only [assocSet, h, if_false, List.map_cons, List.mem_cons, ih]
      tauto

theorem nodup_keys_assocSet (m : List (κ × ν)) (x : κ) (w : ν)
    (hm : (m.map Prod.fst).Nodup) : ((assocSet m x w).map Prod.fst).Nodup := by
  induction m with
  | nil => simp [assocSet]
  | cons e rest ih =>
    obtain ⟨k, v⟩ := e
    simp only [List.map_cons, List.nodup_cons] at hm
    by_cases h : x = k
    · subst h
      simpa [assocSet] using hm
    · simp only [assocSet, h, if_false, List.map_cons, List.nodup_cons]
      refine ⟨?_, ih hm.2⟩
      rw [mem_keys_assocSet]
      rintro (h1 | h1)
      · exact h h1.symm
      · exact hm.1 h1

end Assoc

/-! ## Lemmas on the loop of `NewFormation` -/

theorem Formation.NoNilEntry.get_ne (f : Formation) (hf : f.NoNilEntry) (t : ProcessType) :
    f.get t ≠ some none := by
  intro h
  exact hf (t, none) (assocGet_mem _ _ _ h) rfl

theorem NewFormation.body_eq (f : Formation) (ps : List (ProcessType × Option Process))
    (t : ProcessType) (cmd : Command) (h : f.get t ≠ some none) :
    NewFormation.body f ps t cmd = some (assocSet ps t (some (NewFormation.entry f t cmd))) := by
  unfold NewFormation.body NewFormation.entry
  rcases hg : f.get t with _ | (_ | e)
  · rfl
  · exact absurd hg h
  · rfl

theorem NewFormation.loop_eq (f : Formation)
    (es : List (ProcessType × Command)) (ps : List (ProcessType × Option Process))
    (h : ∀ t ∈ es.map Prod.fst, f.get t ≠ some none) :
    NewFormation.loop f es ps = some (NewFormation.built f es ps) := by
  induction es generalizing ps with
  | nil => rfl
  | cons e rest ih =>
    obtain ⟨t, cmd⟩ := e
    have ht : f.get t ≠ some none := h t (by simp)
    have hrest : ∀ x ∈ rest.map Prod.fst, f.get x ≠ some none :=
      fun x hx => h x (by simp only [List.map_cons, List.mem_cons]; exact Or.inr hx)
    simp only [NewFormation.loop, NewFormation.built, NewFormation.body_eq f ps t cmd ht]
    exact ih _ hrest

theorem NewFormation.loop_none (f : Formation)
    (es : List (ProcessType × Command)) (ps : List (ProcessType × Option Process))
    (t : ProcessType) (ht : t ∈ es.map Prod.fst) (hnil : f.get t = some none) :
    NewFormation.loop f es ps = none := by
  induction es generalizing ps with
  | nil => simp at ht
  | cons e rest ih =>
    obtain ⟨t0, cmd⟩ := e
    by_cases h0 : f.get t0 = some none
    · simp [NewFormation.loop, NewFormation.body, h0]
    · have hrest : t ∈ rest.map Prod.fst := by
        simp only [List.map_cons, List.mem_cons] at ht
        rcases ht with h | h
        · exact absurd (h ▸ hnil) h0
        · exact h
      simp only [NewFormation.loop, NewFormation.body_eq f ps t0 cmd h0]
      exact ih _ hrest

theorem NewFormation.eq_built (f : Formation) (hf : f.NoNilEntry) (cm : CommandMap) :
    NewFormation f cm = some (GoMap.table (NewFormation.built f cm.entries [])) := by
  simp [NewFormation, NewFormation.loop_eq f cm.entries [] (fun t _ => hf.get_ne f t)]

/-- The loop of `NewFormation` runs to its end exactly when no type named by
the command map holds a nil pointer in the prior formation. -/
theorem NewFormation.returns_iff (f : Formation) (cm : CommandMap) :
    (∃ R, NewFormation f cm = some R) ↔ ∀ t ∈ cm.keys, f.get t ≠ some none := by
  constructor
  · rintro ⟨R, hR⟩ t ht hnil
    have := NewFormation.loop_none f cm.entries [] t ht hnil
    simp [NewFormation, this] at hR
  · intro h
    exact ⟨GoMap.table (NewFormation.built f cm.entries []),
      by simp [NewFormation, NewFormation.loop_eq f cm.entries [] h]⟩

theorem NewFormation.loop_congr (f g : Formation) (hfg : ∀ t, f.get t = g.get t)
    (es : List (ProcessType × Command)) (ps : List (ProcessType × Option Process)) :
    NewFormation.loop f es ps = NewFormation.loop g es ps := by
  induction es generalizing ps with
  | nil => rfl
  | cons e rest ih =>
    obtain ⟨t, cmd⟩ := e
    have hb : NewFormation.body f ps t cmd = NewFormation.body g ps t cmd := by
      simp only [NewFormation.body, hfg t]
    simp only [NewFormation.loop, hb]
    cases NewFormation.body g ps t cmd with
    | none => rfl
    | some ps1 => exact ih ps1

theorem NewFormation.mem_keys_built (f : Formation) (es : List (ProcessType × Command))
    (ps : List (ProcessType × Option Process)) (x : ProcessType) :
    x ∈ (NewFormation.built f es ps).map Prod.fst ↔
      x ∈ ps.map Prod.fst ∨ x ∈ es.map Prod.fst := by
  induction es generalizing ps with
  | nil => simp [NewFormation.built]
  | cons e rest ih =>
    obtain ⟨t, cmd⟩ := e
    simp only [NewFormation.built, ih, mem_keys_assocSet, List.map_cons, List.mem_cons]
    tauto

theorem NewFormation.nodup_keys_built (f : Formation) (es : List (ProcessType × Command))
    (ps : List (ProcessType × Option Process)) (hps : (ps.map Prod.fst).Nodup) :
    ((NewFormation.built f es ps).map Prod.fst).Nodup := by
  induction es generalizing ps with
  | nil => simpa [NewFormation.built] using hps
  | cons e rest ih =>
    obtain ⟨t, cmd⟩ := e
    exact ih _ (nodup_keys_assocSet ps t _ hps)

theorem NewFormation.get_built_of_not_mem (f : Formation) (es : List (ProcessType × Command))
    (ps : List (ProcessType × Option Process)) (x : ProcessType)
    (hx : x ∉ es.map Prod.fst) :
    assocGet (NewFormation.built f es ps) x = assocGet ps x := by
  induction es generalizing ps with
  | nil => rfl
  | cons e rest ih =>
    obtain ⟨t, cmd⟩ := e
    simp only [List.map_cons, List.mem_cons, not_or] at hx
    rw [NewFormation.built, ih _ hx.2, assocGet_assocSet_ne _ _ _ _ hx.1]

theorem NewFormation.get_built_of_mem (f : Formation) (es : List (ProcessType × Command))
    (ps : List (ProcessType × Option Process)) (x : ProcessType)
    (hx : x ∈ es.map Prod.fst) :
    ∃ cmd, (x, cmd) ∈ es ∧
      assocGet (NewFormation.built f es ps) x = some (some (NewFormation.entry f x cmd)) := by
  induction es generalizing ps with
  | nil => simp at hx
  | cons e rest ih =>
    obtain ⟨t, cmd⟩ := e
    by_cases hr : x ∈ rest.map Prod.fst
    · obtain ⟨c, hc, hget⟩ := ih (assocSet ps t (some (NewFormation.entry f t cmd))) hr
      exact ⟨c, List.mem_cons_of_mem _ hc, hget⟩
    · have hxt : x = t := by
        simp only [List.map_cons, List.mem_cons] at hx
        rcases hx with h | h
        · exact h
        · exact absurd h hr
      subst hxt
      refine ⟨cmd, List.mem_cons_self _ _, ?_⟩
      rw [NewFormation.built, NewFormation.get_built_of_not_mem f rest _ x hr,
        assocGet_assocSet_self]

theorem NewProcess_Quantity (t : ProcessType) (cmd : Command) :
    (NewProcess t cmd).Quantity = if t = "web" then 1 else 0 := by
  simp only [NewProcess, DefaultQuantities, GoMap.get, GoMap.entries, assocGet]
  split <;> rfl

theorem NewFormation.entry_Command (f : Formation) (t : ProcessType) (cmd : Command) :
    (NewFormation.entry f t cmd).Command = cmd := by
  unfold NewFormation.entry
  split <;> rfl

theorem NewFormation.entry_of_get (f : Formation) (t : ProcessType) (cmd : Command)
    (e : Process) (h : f.get t = some (some e)) :
    NewFormation.entry f t cmd =
      { NewProcess t cmd with Quantity := e.Quantity, Constraints := e.Constraints } := by
  simp [NewFormation.entry, h]

theorem NewFormation.entry_of_get_none (f : Formation) (t : ProcessType) (cmd : Command)
    (h : f.get t = none) : NewFormation.entry f t cmd = NewProcess t cmd := by
  simp [NewFormation.entry, h]

theorem GoMap.get_eq_none_iff {κ ν : Type} [DecidableEq κ] (m : GoMap κ ν) (x : κ) :
    m.get x = none ↔ x ∉ m.keys :=
  assocGet_eq_none_iff m.entries x

/-! ## Lemmas on decimal numerals -/

theorem digitChar_isDigit : ∀ d, d < 10 → (Nat.digitChar d).isDigit = true := by
  decide

theorem digitValue_digitChar : ∀ d, d < 10 → digitValue (Nat.digitChar d) = some d := by
  decide

/-- The digits `toDigitsCore` puts in front of `ds` are decimal digits, and
there is at least one when it has fuel. -/
theorem toDigitsCore_prepends (fuel n : Nat) (ds : List Char) :
    ∃ pre, Nat.toDigitsCore 10 fuel n ds = pre ++ ds ∧
      (∀ c ∈ pre, c.isDigit = true) ∧ (0 < fuel → pre ≠ []) := by
  induction fuel generalizing n ds with
  | zero => exact ⟨[], rfl, by simp, by simp⟩
  | succ fuel ih =>
    have hd : (Nat.digitChar (n % 10)).isDigit = true :=
      digitChar_isDigit _ (Nat.mod_lt _ (by decide))
    by_cases h : n / 10 = 0
    · refine ⟨[Nat.digitChar (n % 10)], by simp [Nat.toDigitsCore, h], ?_, by simp⟩
      intro c hc
      rw [List.mem_singleton.1 hc]
      exact hd
    · obtain ⟨pre, hpre, hdig, _⟩ := ih (n / 10) (Nat.digitChar (n % 10) :: ds)
      refine ⟨pre ++ [Nat.digitChar (n % 10)], by simp [Nat.toDigitsCore, h, hpre], ?_, by simp⟩
      intro c hc
      rcases List.mem_append.1 hc with hc | hc
      · exact hdig c hc
      · rw [List.mem_singleton.1 hc]
        exact hd

theorem toDigits_isDigit (n : Nat) : ∀ c ∈ Nat.toDigits 10 n, c.isDigit = true := by
  obtain ⟨pre, hpre, hdig, _⟩ := toDigitsCore_prepends (n + 1) n []
  intro c hc
  rw [Nat.toDigits, hpre, List.append_nil] at hc
  exact hdig c hc

theorem toDigits_ne_nil (n : Nat) : Nat.toDigits 10 n ≠ [] := by
  obtain ⟨pre, hpre, _, hne⟩ := toDigitsCore_prepends (n + 1) n []
  rw [Nat.toDigits, hpre, List.append_nil]
  exact hne (Nat.succ_pos n)

theorem readDigits_toDigitsCore (fuel n : Nat) (ds : List Char) (h : n < fuel) :
    readDigits (Nat.toDigitsCore 10 fuel n ds) 0 = readDigits ds n := by
  induction fuel generalizing n ds with
  | zero => omega
  | succ fuel ih =>
    have hv := digitValue_digitChar (n % 10) (Nat.mod_lt _ (by decide))
    by_cases h0 : n / 10 = 0
    · have hn : n % 10 = n := by omega
      rw [hn] at hv
      simp [Nat.toDigitsCore, h0, readDigits, hv, hn]
    · have hlt : n / 10 < fuel := by omega
      have hn : n / 10 * 10 + n % 10 = n := by omega
      simp [Nat.toDigitsCore, h0, ih (n / 10) _ hlt, readDigits, hv, hn]

theorem readNat_toDigits (n : Nat) : readNat (Nat.toDigits 10 n) = some n := by
  have h := readDigits_toDigitsCore (n + 1) n [] (Nat.lt_succ_self n)
  rw [readDigits] at h
  cases hl : Nat.toDigits 10 n with
  | nil => exact absurd hl (toDigits_ne_nil n)
  | cons c cs =>
    rw [readNat, ← hl]
    exact h

theorem readInt_formatInt (i : Int) : readInt (formatInt i) = some i := by
  cases i with
  | ofNat n =>
    cases hl : Nat.toDigits 10 n with
    | nil => exact absurd hl (toDigits_ne_nil n)
    | cons c cs =>
      have hc : c ≠ '-' := by
        intro h
        have := toDigits_isDigit n c (by rw [hl]; exact List.mem_cons_self _ _)
        rw [h] at this
        exact absurd this (by decide)
      simp only [formatInt, hl, readInt, hc, if_false]
      rw [← hl, readNat_toDigits]
      rfl
  | negSucc n =>
    simp only [formatInt, readInt, if_true, readNat_toDigits]
    rfl

theorem colon_not_mem_formatInt (i : Int) : ':' ∉ formatInt i := by
  intro h
  have hd : ∀ n, ':' ∉ Nat.toDigits 10 n := by
    intro n hn
    exact absurd (toDigits_isDigit n _ hn) (by decide)
  cases i with
  | ofNat n => exact hd n h
  | negSucc n =>
    rcases List.mem_cons.1 h with h | h
    · exact absurd h (by decide)
    · exact hd _ h

/-- The rendering of `formatInt` is the decimal numeral of the integer. -/
theorem formatInt_eq_toString (i : Int) : String.mk (formatInt i) = toString i := by
  cases i <;> rfl

/-! ## Lemmas on the generic parser -/

theorem splitColon_append (a b : List Char) (ha : ':' ∉ a) :
    splitColon (a ++ ':' :: b) = some (a, b) := by
  induction a with
  | nil => simp [splitColon]
  | cons c cs ih =>
    simp only [List.mem_cons, not_or] at ha
    have hc : c ≠ ':' := fun h => ha.1 h.symm
    simp [splitColon, hc, ih ha.2]

theorem readSize_toDigits (m : Nat) : readSize (Nat.toDigits 10 m) = some m := by
  have hall := toDigits_isDigit m
  have ht : (Nat.toDigits 10 m).takeWhile Char.isDigit = Nat.toDigits 10 m :=
    List.takeWhile_eq_self_iff.2 hall
  have hdrop : (Nat.toDigits 10 m).dropWhile Char.isDigit = [] :=
    List.dropWhile_eq_nil_iff.2 hall
  simp [readSize, ht, hdrop, readNat_toDigits, unitMultiplier]

theorem Parse_rendering (c : Constraints) :
    constraints.Parse ⟨formatInt c.CPUShare ++ ':' :: constraints.Memory.String c.Memory⟩ =
      (c, none) := by
  simp only [constraints.Parse, constraints.Memory.String,
    splitColon_append _ _ (colon_not_mem_formatInt c.CPUShare), readInt_formatInt,
    readSize_toDigits]

/-! ## Lemmas on the preset table -/

theorem NamedConstraints_values_nodup : (NamedConstraints.entries.map Prod.snd).Nodup := by
  decide

theorem search_of_mem (c : Constraints) (order : List (String × Constraints))
    (hnd : (order.map Prod.snd).Nodup) (n : String) (hn : (n, c) ∈ order) :
    Constraints.String.search c order = some n := by
  induction order with
  | nil => simp at hn
  | cons e rest ih =>
    obtain ⟨m, v⟩ := e
    simp only [List.map_cons, List.nodup_cons] at hnd
    rcases List.mem_cons.1 hn with h | h
    · simp only [Prod.mk.injEq] at h
      simp [Constraints.String.search, h.1, h.2]
    · have hne : c ≠ v := by
        rintro rfl
        exact hnd.1 (List.mem_map.2 ⟨(n, c), h, rfl⟩)
      simp [Constraints.String.search, hne, ih hnd.2 h]

theorem search_eq_none (c : Constraints) (order : List (String × Constraints))
    (h : ∀ e ∈ order, c ≠ e.2) : Constraints.String.search c order = none := by
  induction order with
  | nil => rfl
  | cons e rest ih =>
    obtain ⟨m, v⟩ := e
    have hne : c ≠ v := h (m, v) (List.mem_cons_self _ _)
    simp [Constraints.String.search, hne, ih (fun e he => h e (List.mem_cons_of_mem _ he))]

theorem search_mem (c : Constraints) (order : List (String × Constraints))
    (n : String) (h : Constraints.String.search c order = some n) : (n, c) ∈ order := by
  induction order with
  | nil => simp [Constraints.String.search] at h
  | cons e rest ih =>
    obtain ⟨m, v⟩ := e
    by_cases hc : c = v
    · simp [Constraints.String.search, hc] at h
      simp [hc, h]
    · simp [Constraints.String.search, hc] at h
      exact List.mem_cons_of_mem _ (ih h)

/-- Whatever the iteration order, a preset value is rendered as its name. -/
theorem String_of_named (order : List (String × Constraints))
    (h : order.Perm NamedConstraints.entries) (n : String) (c : Constraints)
    (hn : NamedConstraints.get n = some c) : Constraints.String order c = n := by
  have hmem : (n, c) ∈ order := h.mem_iff.2 (assocGet_mem _ _ _ hn)
  have hnd : (order.map Prod.snd).Nodup :=
    (h.map Prod.snd).nodup_iff.2 NamedConstraints_values_nodup
  simp [Constraints.String, search_of_mem c order hnd n hmem]

theorem parseConstraints_of_named (parse : String → Constraints × Option GoError)
    (n : String) (c : Constraints) (hn : NamedConstraints.get n = some c) :
    parseConstraints parse n = (some c, none) := by
  have hne : n ≠ "" := by
    rintro rfl
    have hnone : NamedConstraints.get "" = none := by decide
    rw [hnone] at hn
    exact Option.noConfusion hn
  simp [parseConstraints, hne, hn]

/-- Whatever the iteration order, a value that is no preset is rendered by the
fall-through of `Constraints.String`. -/
theorem String_of_not_named (order : List (String × Constraints))
    (h : order.Perm NamedConstraints.entries) (c : Constraints)
    (h1 : c ≠ Constraints1X) (h2 : c ≠ Constraints2X) (h3 : c ≠ ConstraintsPX) :
    Constraints.String order c =
      ⟨formatInt c.CPUShare ++ ':' :: constraints.Memory.String c.Memory⟩ := by
  have hnone : Constraints.String.search c order = none := by
    apply search_eq_none
    intro e he
    have he2 : e ∈ NamedConstraints.entries := h.mem_iff.1 he
    simp only [NamedConstraints, GoMap.entries, List.mem_cons, List.mem_singleton,
      List.not_mem_nil, or_false] at he2
    rcases he2 with rfl | rfl | rfl
    · exact h1
    · exact h2
    · exact h3
  simp [Constraints.String, hnone]

theorem get_NamedConstraints_of_colon (s : String) (hs : ':' ∈ s.data) :
    NamedConstraints.get s = none := by
  rw [GoMap.get_eq_none_iff]
  intro hmem
  simp only [NamedConstraints, GoMap.keys, GoMap.entries, List.map_cons, List.map_nil,
    List.mem_cons, List.mem_singleton, List.not_mem_nil, or_false] at hmem
  rcases hmem with rfl | rfl | rfl <;> exact absurd hs (by decide)

theorem colon_mem_rendering (c : Constraints) :
    ':' ∈ (String.mk (formatInt c.CPUShare ++ ':' :: constraints.Memory.String c.Memory)).data := by
  simp

/-- Parsing inverts rendering on every value, preset or not, whatever the
iteration order of the rendering. -/
theorem parseConstraints_String (order : List (String × Constraints))
    (h : order.Perm NamedConstraints.entries) (c : Constraints) :
    parseConstraints constraints.Parse (Constraints.String order c) = (some c, none) := by
  cases hsearch : Constraints.String.search c order with
  | some n =>
    have hmem : (n, c) ∈ NamedConstraints.entries :=
      h.mem_iff.1 (search_mem c order n hsearch)
    have hget : NamedConstraints.get n = some c :=
      assocGet_of_mem_nodup _ (by decide) n c hmem
    simp only [Constraints.String, hsearch]
    exact parseConstraints_of_named _ n c hget
  | none =>
    have hcolon := colon_mem_rendering c
    have hne : String.mk (formatInt c.CPUShare ++ ':' :: constraints.Memory.String c.Memory)
        ≠ "" := by
      intro he
      rw [he] at hcolon
      exact absurd hcolon (by decide)
    simp only [Constraints.String, hsearch, parseConstraints, hne, if_false,
      get_NamedConstraints_of_colon _ hcolon, Parse_rendering]

/-! ## Reconciliation: the properties of `NewFormation` -/

/-- C1. For a prior formation `F` whose entries point to processes (the nil
and the empty formation among them) and every command map `C`, `NewFormation`
returns a formation whose keys are exactly the keys of `C`, each once; a type
of `F` that `C` does not name is absent from it. -/
theorem NewFormation_keys (F : Formation) (C : CommandMap) (hF : F.NoNilEntry) :
    ∃ R, NewFormation F C = some R ∧ (∀ t, t ∈ R.keys ↔ t ∈ C.keys) ∧
      (∀ t, t ∈ F.keys → t ∉ C.keys → t ∉ R.keys) ∧ R.WellFormed := by
  have hkeys : ∀ t, t ∈ (GoMap.table (NewFormation.built F C.entries [])).keys ↔
      t ∈ C.keys := by
    intro t
    show t ∈ (NewFormation.built F C.entries []).map Prod.fst ↔ t ∈ C.entries.map Prod.fst
    rw [NewFormation.mem_keys_built]
    simp
  exact ⟨_, NewFormation.eq_built F hF C, hkeys, fun t _ ht h => ht ((hkeys t).1 h),
    NewFormation.nodup_keys_built F C.entries [] List.nodup_nil⟩

/-- Witness of C1 on the release that drops `clock` and adds `worker`. -/
theorem NewFormation_keys_witness :
    priorExample.NoNilEntry ∧
      ∃ R, NewFormation priorExample commandsExample = some R ∧
        (∀ t, t ∈ R.keys ↔ t ∈ commandsExample.keys) ∧
        (∀ t, t ∈ priorExample.keys → t ∉ commandsExample.keys → t ∉ R.keys) ∧
        R.WellFormed :=
  ⟨by decide, NewFormation_keys priorExample commandsExample (by decide)⟩

/-- The spec's scenario of a release that keeps `web`, drops `clock` and adds
`worker`. -/
theorem NewFormation_priorExample :
    NewFormation priorExample commandsExample =
      some (GoMap.table
        [("web", some ⟨"", "", "web", 3, "./web", 0, Constraints2X⟩),
         ("worker", some ⟨"", "", "worker", 0, "./worker", 0, Constraints1X⟩)]) := by
  decide

/-- C2. For a prior formation `F` whose entries point to processes, a command
map `C` and a type `t` that is a key of both, with `old` the process `F[t]`,
the entry of `t` in `NewFormation(F, C)` has the quantity and the constraints
of `old`, whatever their values. -/
theorem NewFormation_keeps_scale (F : Formation) (C : CommandMap) (hF : F.NoNilEntry)
    (t : ProcessType) (old : Process) (hFt : F.get t = some (some old)) (hCt : t ∈ C.keys) :
    ∃ R p, NewFormation F C = some R ∧ R.get t = some (some p) ∧
      p.Quantity = old.Quantity ∧ p.Constraints = old.Constraints := by
  obtain ⟨cmd, _, hget⟩ := NewFormation.get_built_of_mem F C.entries [] t hCt
  refine ⟨_, _, NewFormation.eq_built F hF C, hget, ?_, ?_⟩ <;>
    rw [NewFormation.entry_of_get F t cmd old hFt]

/-- Witness of C2: the three `web` processes of size 2X survive the release. -/
theorem NewFormation_keeps_scale_witness :
    priorExample.NoNilEntry ∧
      priorExample.get "web" =
        some (some ⟨"r1", "p1", "web", 3, "./old-web", 8080, Constraints2X⟩) ∧
      "web" ∈ commandsExample.keys ∧
      ∃ R p, NewFormation priorExample commandsExample = some R ∧
        R.get "web" = some (some p) ∧ p.Quantity = 3 ∧ p.Constraints = Constraints2X :=
  ⟨by decide, by decide, by decide,
    NewFormation_keeps_scale priorExample commandsExample (by decide) "web"
      ⟨"r1", "p1", "web", 3, "./old-web", 8080, Constraints2X⟩ (by decide) (by decide)⟩

/-- C3. For a prior formation `F` whose entries point to processes (the nil
formation among them), a command map `C` and a type `t` that is a key of `C`
but not of `F`, the entry of `t` in `NewFormation(F, C)` has quantity 1 when
`t` is `web` and 0 otherwise, and the constraints of the preset 1X: CPU share
256 and 536870912 bytes of memory. -/
theorem NewFormation_new_type (F : Formation) (C : CommandMap) (hF : F.NoNilEntry)
    (t : ProcessType) (hFt : t ∉ F.keys) (hCt : t ∈ C.keys) :
    ∃ R p, NewFormation F C = some R ∧ R.get t = some (some p) ∧
      p.Quantity = (if t = "web" then 1 else 0) ∧
      p.Constraints = Constraints1X ∧ p.Constraints = ⟨256, 536870912⟩ := by
  obtain ⟨cmd, _, hget⟩ := NewFormation.get_built_of_mem F C.entries [] t hCt
  have hnone : F.get t = none := (GoMap.get_eq_none_iff F t).2 hFt
  refine ⟨_, _, NewFormation.eq_built F hF C, hget, ?_, ?_, ?_⟩
  · rw [NewFormation.entry_of_get_none F t cmd hnone, NewProcess_Quantity]
  · rw [NewFormation.entry_of_get_none F t cmd hnone]
    rfl
  · rw [NewFormation.entry_of_get_none F t cmd hnone]
    show DefaultConstraints = _
    decide

/-- Witness of C3: a first release, with no prior formation, starts one `web`
process of size 1X. -/
theorem NewFormation_new_type_witness :
    Formation.NoNilEntry GoMap.nil ∧ "web" ∉ (GoMap.nil : Formation).keys ∧
      "web" ∈ commandsExample.keys ∧
      ∃ R p, NewFormation GoMap.nil commandsExample = some R ∧
        R.get "web" = some (some p) ∧
        p.Quantity = (if "web" = "web" then 1 else 0) ∧
        p.Constraints = Constraints1X ∧ p.Constraints = ⟨256, 536870912⟩ :=
  ⟨by decide, by decide, by decide,
    NewFormation_new_type GoMap.nil commandsExample (by decide) "web" (by decide) (by decide)⟩

/-- A new type other than `web` starts with no process: `worker` gets quantity
0 and size 1X beside the prior `web`. -/
theorem NewFormation_new_worker :
    ∃ R p, NewFormation priorExample commandsExample = some R ∧
      R.get "worker" = some (some p) ∧ p.Quantity = 0 ∧
      p.Constraints = ⟨256, 536870912⟩ :=
  ⟨_, ⟨"", "", "worker", 0, "./worker", 0, Constraints1X⟩, NewFormation_priorExample,
    by decide, by decide, by decide⟩

/-- C4. For a prior formation `F` whose entries point to processes, a command
map `C` and a type `t` with command `c` in `C`, the entry of `t` in
`NewFormation(F, C)` has command `c`, whatever the command of the prior process
of type `t`. -/
theorem NewFormation_command (F : Formation) (C : CommandMap) (hF : F.NoNilEntry)
    (hC : C.WellFormed) (t : ProcessType) (c : Command) (hCt : C.get t = some c) :
    ∃ R p, NewFormation F C = some R ∧ R.get t = some (some p) ∧ p.Command = c := by
  have hmem : t ∈ C.keys := by
    by_contra hn
    rw [(GoMap.get_eq_none_iff C t).2 hn] at hCt
    exact Option.noConfusion hCt
  obtain ⟨cmd, hcmd, hget⟩ := NewFormation.get_built_of_mem F C.entries [] t hmem
  have hc : cmd = c := by
    have := assocGet_of_mem_nodup C.entries hC t cmd hcmd
    exact Option.some.inj (this.symm.trans hCt)
  exact ⟨_, _, NewFormation.eq_built F hF C, hget,
    (NewFormation.entry_Command F t cmd).trans hc⟩

/-- Witness of C4: the prior `web` process ran `./old-web`, the new one runs
the command of the release. -/
theorem NewFormation_command_witness :
    priorExample.NoNilEntry ∧ commandsExample.WellFormed ∧
      commandsExample.get "web" = some "./web" ∧
      ∃ R p, NewFormation priorExample commandsExample = some R ∧
        R.get "web" = some (some p) ∧ p.Command = "./web" :=
  ⟨by decide, by decide, by decide,
    NewFormation_command priorExample commandsExample (by decide) (by decide)
      "web" "./web" (by decide)⟩

/-- Counterexample to C5: on the prior formation that holds a nil pointer under
`web`, a type the command map names, `NewFormation` does not return: reading
`existing.Quantity` through the nil pointer panics. -/
theorem NewFormation_nil_entry_faults :
    (GoMap.table [("web", none)] : Formation).get "web" = some none ∧
      "web" ∈ commandsExample.keys ∧
      NewFormation (GoMap.table [("web", none)]) commandsExample = none := by
  decide

/-- C5, amended. `NewFormation` returns a formation, a non-nil map, exactly
when no type that the command map names holds a nil pointer in the prior
formation. So it returns for every command map when the prior formation is
the nil map, the empty map, or a map whose entries all point to processes; and
the nil prior formation gives the same result as the empty one. -/
theorem NewFormation_total (F : Formation) (C : CommandMap) :
    ((∃ es, NewFormation F C = some (GoMap.table es)) ↔
        ∀ t ∈ C.keys, F.get t ≠ some none) ∧
      (F.NoNilEntry → ∃ es, NewFormation F C = some (GoMap.table es)) ∧
      (∃ es, NewFormation GoMap.nil C = some (GoMap.table es)) ∧
      (∃ es, NewFormation (GoMap.table []) C = some (GoMap.table es)) ∧
      NewFormation GoMap.nil C = NewFormation (GoMap.table []) C := by
  refine ⟨⟨?_, ?_⟩, fun hF => ⟨_, NewFormation.eq_built F hF C⟩,
    ⟨_, NewFormation.eq_built GoMap.nil (by decide) C⟩,
    ⟨_, NewFormation.eq_built (GoMap.table []) (by decide) C⟩,
    congrArg (Option.map GoMap.table)
      (NewFormation.loop_congr GoMap.nil (GoMap.table []) (fun _ => rfl) C.entries [])⟩
  · rintro ⟨es, hes⟩
    exact (NewFormation.returns_iff F C).1 ⟨_, hes⟩
  · intro h
    exact ⟨NewFormation.built F C.entries [],
      by simp [NewFormation, NewFormation.loop_eq F C.entries [] h]⟩

/-- Witness of C5: the release that drops `clock` and adds `worker` returns on
`priorExample`, whose entries point to processes, and also on a prior
formation that holds a nil pointer under `clock`, a type the release does not
name. -/
theorem NewFormation_total_witness :
    priorExample.NoNilEntry ∧
      (∃ es, NewFormation priorExample commandsExample = some (GoMap.table es)) ∧
      (∀ t ∈ commandsExample.keys,
        (GoMap.table [("clock", none)] : Formation).get t ≠ some none) ∧
      (∃ es, NewFormation (GoMap.table [("clock", none)]) commandsExample =
        some (GoMap.table es)) :=
  ⟨by decide, (NewFormation_total priorExample commandsExample).2.1 (by decide),
    by decide,
    (NewFormation_total (GoMap.table [("clock", none)]) commandsExample).1.2 (by decide)⟩

/-! ## Constraints: the properties of `parseConstraints` and `Constraints.String` -/

/-- C6. On the empty spec `parseConstraints` returns a nil value and a nil
error, whatever the generic parser does. -/
theorem parseConstraints_empty (parse : String → Constraints × Option GoError) :
    parseConstraints parse "" = (none, none) :=
  rfl

/-- C7. On each of the three preset names `parseConstraints` returns the
preset's value and a nil error, whatever the generic parser `parse` does: 1X is
(256, 512 MiB), 2X is (512, 1 GiB), PX is (1024, 6 GiB). Every other non-empty
spec is handed to the generic parser, whose result decides: its value on
success, its error on failure. -/
theorem parseConstraints_presets (parse : String → Constraints × Option GoError) :
    parseConstraints parse "1X" = (some ⟨256, 512 * 2 ^ 20⟩, none) ∧
      parseConstraints parse "2X" = (some ⟨512, 2 ^ 30⟩, none) ∧
      parseConstraints parse "PX" = (some ⟨1024, 6 * 2 ^ 30⟩, none) ∧
      ∀ con, con ≠ "" → con ≠ "1X" → con ≠ "2X" → con ≠ "PX" →
        (∀ c, parse con = (c, none) → parseConstraints parse con = (some c, none)) ∧
        (∀ c err, parse con = (c, some err) →
          parseConstraints parse con = (none, some err)) := by
  refine ⟨rfl, rfl, rfl, ?_⟩
  intro con h0 h1 h2 h3
  have hget : NamedConstraints.get con = none := by
    simp [GoMap.get, GoMap.entries, NamedConstraints, assocGet, h1, h2, h3]
  constructor
  · intro c hc
    simp [parseConstraints, h0, hget, hc]
  · intro c err hc
    simp [parseConstraints, h0, hget, hc]

/-- Witness of C7: a preset name in lower case or with a space around it goes
to the generic parser, here one that rejects everything. -/
theorem parseConstraints_presets_witness :
    parseConstraints (fun _ => (⟨0, 0⟩, some "rejected")) "1x" = (none, some "rejected") ∧
      parseConstraints (fun _ => (⟨0, 0⟩, some "rejected")) " 1X" = (none, some "rejected") ∧
      parseConstraints (fun _ => (⟨0, 0⟩, some "rejected")) "1X " = (none, some "rejected") ∧
      parseConstraints (fun _ => (⟨0, 0⟩, some "rejected")) "1X" =
        (some ⟨256, 536870912⟩, none) :=
  ⟨((parseConstraints_presets (fun _ => (⟨0, 0⟩, some "rejected"))).2.2.2 "1x"
      (by decide) (by decide) (by decide) (by decide)).2 ⟨0, 0⟩ "rejected" rfl,
    ((parseConstraints_presets (fun _ => (⟨0, 0⟩, some "rejected"))).2.2.2 " 1X"
      (by decide) (by decide) (by decide) (by decide)).2 ⟨0, 0⟩ "rejected" rfl,
    ((parseConstraints_presets (fun _ => (⟨0, 0⟩, some "rejected"))).2.2.2 "1X "
      (by decide) (by decide) (by decide) (by decide)).2 ⟨0, 0⟩ "rejected" rfl,
    (parseConstraints_presets (fun _ => (⟨0, 0⟩, some "rejected"))).1⟩

/-- C8. The three preset values are pairwise distinct, so for every order
`order` in which the loop of `Constraints.String` visits the preset table and
every preset `n` with value `c`: `String(c)` is `n`, rendering what
`parseConstraints` returns on `n` gives `n` back, and `parseConstraints` on
`String(c)` gives `c` back. -/
theorem String_preset_deterministic (order : List (String × Constraints))
    (h : order.Perm NamedConstraints.entries)
    (parse : String → Constraints × Option GoError) (n : String) (c : Constraints)
    (hn : NamedConstraints.get n = some c) :
    (Constraints1X ≠ Constraints2X ∧ Constraints1X ≠ ConstraintsPX ∧
        Constraints2X ≠ ConstraintsPX) ∧
      Constraints.String order c = n ∧
      (parseConstraints parse n).1.map (Constraints.String order) = some n ∧
      parseConstraints parse (Constraints.String order c) = (some c, none) := by
  have hs := String_of_named order h n c hn
  have hp := parseConstraints_of_named parse n c hn
  refine ⟨by decide, hs, ?_, ?_⟩
  · rw [hp]
    exact congrArg some hs
  · rw [hs]
    exact hp

/-- Witness of C8: the table visited in reverse order, the preset 2X. -/
theorem String_preset_deterministic_witness :
    NamedConstraints.entries.reverse.Perm NamedConstraints.entries ∧
      NamedConstraints.get "2X" = some Constraints2X ∧
      (Constraints1X ≠ Constraints2X ∧ Constraints1X ≠ ConstraintsPX ∧
        Constraints2X ≠ ConstraintsPX) ∧
      Constraints.String NamedConstraints.entries.reverse Constraints2X = "2X" ∧
      (parseConstraints constraints.Parse "2X").1.map
        (Constraints.String NamedConstraints.entries.reverse) = some "2X" ∧
      parseConstraints constraints.Parse
        (Constraints.String NamedConstraints.entries.reverse Constraints2X) =
          (some Constraints2X, none) :=
  ⟨List.reverse_perm _, by decide,
    String_preset_deterministic NamedConstraints.entries.reverse (List.reverse_perm _)
      constraints.Parse "2X" Constraints2X (by decide)⟩

/-- C9. For every order in which the preset table is visited and every `c`
that equals none of the three presets, `String(c)` is the decimal CPU share, a
colon and the decimal byte count of the memory, and it is no preset name. -/
theorem String_custom (order : List (String × Constraints))
    (h : order.Perm NamedConstraints.entries) (c : Constraints)
    (h1 : c ≠ Constraints1X) (h2 : c ≠ Constraints2X) (h3 : c ≠ ConstraintsPX) :
    Constraints.String order c = toString c.CPUShare ++ ":" ++ toString c.Memory ∧
      Constraints.String order c ∉ NamedConstraints.keys := by
  have hs := String_of_not_named order h c h1 h2 h3
  constructor
  · rw [hs, ← formatInt_eq_toString]
    apply String.ext
    simp only [String.data_append, List.append_assoc]
    rfl
  · intro hmem
    have hnone := get_NamedConstraints_of_colon (Constraints.String order c)
      (by rw [hs]; exact colon_mem_rendering c)
    exact (GoMap.get_eq_none_iff _ _).1 hnone hmem

/-- Witness of C9: CPU share 100 with 256 MiB renders as `100:268435456`. -/
theorem String_custom_witness :
    NamedConstraints.entries.Perm NamedConstraints.entries ∧
      (⟨100, 268435456⟩ : Constraints) ≠ Constraints1X ∧
      (⟨100, 268435456⟩ : Constraints) ≠ Constraints2X ∧
      (⟨100, 268435456⟩ : Constraints) ≠ ConstraintsPX ∧
      Constraints.String NamedConstraints.entries ⟨100, 268435456⟩ = "100:268435456" ∧
      Constraints.String NamedConstraints.entries ⟨100, 268435456⟩ ∉ NamedConstraints.keys :=
  ⟨List.Perm.refl _, by decide, by decide, by decide,
    String_custom NamedConstraints.entries (List.Perm.refl _) ⟨100, 268435456⟩
      (by decide) (by decide) (by decide)⟩

/-- C10. For every spec `s` on which `parseConstraints` returns a value `c`
and every order in which the preset table is visited, `parseConstraints` on
`String(c)` returns `c` again, with a nil error. -/
theorem parseConstraints_String_roundtrip (order : List (String × Constraints))
    (h : order.Perm NamedConstraints.entries) (s : String) (c : Constraints)
    (_hs : parseConstraints constraints.Parse s = (some c, none)) :
    parseConstraints constraints.Parse (Constraints.String order c) = (some c, none) :=
  parseConstraints_String order h c

/-- Witness of C10: `100:256MB` parses to CPU share 100 and 256 MiB, whose
rendering parses to the same value. -/
theorem parseConstraints_String_roundtrip_witness :
    NamedConstraints.entries.reverse.Perm NamedConstraints.entries ∧
      parseConstraints constraints.Parse "100:256MB" = (some ⟨100, 256 * 2 ^ 20⟩, none) ∧
      parseConstraints constraints.Parse
        (Constraints.String NamedConstraints.entries.reverse ⟨100, 256 * 2 ^ 20⟩) =
          (some ⟨100, 256 * 2 ^ 20⟩, none) :=
  ⟨List.reverse_perm _, by decide,
    parseConstraints_String_roundtrip NamedConstraints.entries.reverse (List.reverse_perm _)
      "100:256MB" ⟨100, 256 * 2 ^ 20⟩ (by decide)⟩

/-- A spec that parses to a preset value is rendered by the preset's name,
which parses to the same value: `256:512MB` gives 1X. -/
theorem parseConstraints_String_example :
    parseConstraints constraints.Parse "256:512MB" = (some Constraints1X, none) ∧
      Constraints.String NamedConstraints.entries Constraints1X = "1X" ∧
      parseConstraints constraints.Parse "1X" = (some Constraints1X, none) := by
  decide

/-- A spec without a colon is rejected by the generic parser. -/
theorem Parse_not_a_spec :
    constraints.Parse "not-a-spec" = (⟨0, 0⟩, some constraints.ErrInvalidConstraint) := by
  decide

/-- C11. For every generic parser `parse` and every non-empty spec `con` that
is no preset name and that `parse` rejects with the error `err`,
`parseConstraints` returns a nil value and the error `err` itself; and on
every spec at most one of the returned value and the returned error is
non-nil. -/
theorem parseConstraints_malformed (parse : String → Constraints × Option GoError)
    (con : String) (c : Constraints) (err : GoError) (h0 : con ≠ "")
    (hn : con ∉ NamedConstraints.keys) (hp : parse con = (c, some err)) :
    parseConstraints parse con = (none, some err) ∧
      ∀ spec, (parseConstraints parse spec).1 = none ∨
        (parseConstraints parse spec).2 = none := by
  constructor
  · have hget : NamedConstraints.get con = none := (GoMap.get_eq_none_iff _ _).2 hn
    simp [parseConstraints, h0, hget, hp]
  · intro spec
    unfold parseConstraints
    split
    · exact Or.inl rfl
    · split
      · exact Or.inr rfl
      · split
        · exact Or.inl rfl
        · exact Or.inr rfl

/-- Witness of C11: `not-a-spec` fails with the format error of the generic
parser and gives no value. -/
theorem parseConstraints_malformed_witness :
    "not-a-spec" ≠ "" ∧ "not-a-spec" ∉ NamedConstraints.keys ∧
      constraints.Parse "not-a-spec" = (⟨0, 0⟩, some constraints.ErrInvalidConstraint) ∧
      parseConstraints constraints.Parse "not-a-spec" =
        (none, some constraints.ErrInvalidConstraint) ∧
      ∀ spec, (parseConstraints constraints.Parse spec).1 = none ∨
        (parseConstraints constraints.Parse spec).2 = none :=
  ⟨by decide, by decide, Parse_not_a_spec,
    parseConstraints_malformed constraints.Parse "not-a-spec" ⟨0, 0⟩
      constraints.ErrInvalidConstraint (by decide) (by decide) Parse_not_a_spec⟩

/-! ## Codecs: the properties of `Scan` and `Value` -/

/-- C12. `Scan` on a `ProcessType` and on a `Command` returns a nil error for
every source; on a byte slice `b` the destination becomes the string with the
bytes of `b`, and on every other source the destination keeps its value. -/
theorem Scan_never_fails (p : ProcessType) (c : Command) (src : GoValue) :
    (ProcessType.Scan p src).2 = none ∧ (Command.Scan c src).2 = none ∧
      (∀ b, src = GoValue.bytes b →
        (ProcessType.Scan p src).1.data = b ∧ (Command.Scan c src).1.data = b) ∧
      ((∀ b, src ≠ GoValue.bytes b) →
        (ProcessType.Scan p src).1 = p ∧ (Command.Scan c src).1 = c) := by
  cases src with
  | bytes b0 =>
    refine ⟨rfl, rfl, ?_, ?_⟩
    · intro b hb
      cases hb
      exact ⟨rfl, rfl⟩
    · intro h
      exact absurd rfl (h b0)
  | nil => exact ⟨rfl, rfl, fun b hb => GoValue.noConfusion hb, fun _ => ⟨rfl, rfl⟩⟩
  | string s => exact ⟨rfl, rfl, fun b hb => GoValue.noConfusion hb, fun _ => ⟨rfl, rfl⟩⟩
  | int64 i => exact ⟨rfl, rfl, fun b hb => GoValue.noConfusion hb, fun _ => ⟨rfl, rfl⟩⟩
  | bool v => exact ⟨rfl, rfl, fun b hb => GoValue.noConfusion hb, fun _ => ⟨rfl, rfl⟩⟩

/-- Witness of C12: the bytes of `web` replace the destination, the integer 7
and the nil source leave it as it was. -/
theorem Scan_never_fails_witness :
    ((ProcessType.Scan "old" (GoValue.bytes ['w', 'e', 'b'])).1.data = ['w', 'e', 'b'] ∧
        (Command.Scan "./old" (GoValue.bytes ['w', 'e', 'b'])).1.data = ['w', 'e', 'b']) ∧
      ((ProcessType.Scan "old" (GoValue.int64 7)).1 = "old" ∧
        (Command.Scan "./old" (GoValue.int64 7)).1 = "./old") ∧
      ((ProcessType.Scan "old" GoValue.nil).1 = "old" ∧
        (Command.Scan "./old" GoValue.nil).1 = "./old") :=
  ⟨(Scan_never_fails "old" "./old" (GoValue.bytes ['w', 'e', 'b'])).2.2.1 _ rfl,
    (Scan_never_fails "old" "./old" (GoValue.int64 7)).2.2.2
      (fun _ h => GoValue.noConfusion h),
    (Scan_never_fails "old" "./old" GoValue.nil).2.2.2
      (fun _ h => GoValue.noConfusion h)⟩

/-- Counterexample to C13: `Value` returns a string, and `Scan` lets a string
source pass without effect, so scanning what `Value` returned for `web` into a
destination holding `worker` leaves `worker` there. -/
theorem Scan_Value_counterexample :
    ProcessType.Value "web" = (GoValue.string "web", none) ∧
      ProcessType.Scan "worker" (ProcessType.Value "web").1 = ("worker", none) ∧
      (ProcessType.Scan "worker" (ProcessType.Value "web").1).1 ≠ "web" ∧
      Command.Scan "./worker" (Command.Value "./web").1 = ("./worker", none) ∧
      (Command.Scan "./worker" (Command.Value "./web").1).1 ≠ "./web" := by
  decide

/-- C13, amended. For every `ProcessType` `x` and `Command` `y`, `Value`
returns the underlying string with a nil error, and scanning the byte slice of
that string, the form in which the persistence layer hands a stored value
back, into any destination leaves the destination equal to the value; the
string that `Value` returned, scanned as it is, leaves the destination
unchanged. -/
theorem Value_Scan_roundtrip (x d : ProcessType) (y e : Command) :
    ProcessType.Value x = (GoValue.string x, none) ∧
      ProcessType.Scan d (GoValue.bytes x.data) = (x, none) ∧
      Command.Value y = (GoValue.string y, none) ∧
      Command.Scan e (GoValue.bytes y.data) = (y, none) ∧
      ProcessType.Scan d (ProcessType.Value x).1 = (d, none) ∧
      Command.Scan e (Command.Value y).1 = (e, none) :=
  ⟨rfl, rfl, rfl, rfl, rfl, rfl⟩

/-! ## Lemmas on `newFormation` and `Formation.Processes` -/

theorem mem_assocSet {κ ν : Type} [DecidableEq κ] (m : List (κ × ν)) (x : κ) (w : ν)
    (e : κ × ν) (h : e ∈ assocSet m x w) : e = (x, w) ∨ e ∈ m := by
  induction m with
  | nil => simpa [assocSet] using h
  | cons a rest ih =>
    obtain ⟨k, v⟩ := a
    by_cases hx : x = k
    · subst hx
      simp only [assocSet, if_true, List.mem_cons] at h
      rcases h with h | h
      · exact Or.inl h
      · exact Or.inr (List.mem_cons_of_mem _ h)
    · simp only [assocSet, hx, if_false, List.mem_cons] at h
      rcases h with h | h
      · exact Or.inr (h ▸ List.mem_cons_self _ _)
      · rcases ih h with h1 | h1
        · exact Or.inl h1
        · exact Or.inr (List.mem_cons_of_mem _ h1)

theorem assocSet_of_not_mem {κ ν : Type} [DecidableEq κ] (m : List (κ × ν)) (x : κ) (w : ν)
    (h : x ∉ m.map Prod.fst) : assocSet m x w = m ++ [(x, w)] := by
  induction m with
  | nil => rfl
  | cons a rest ih =>
    obtain ⟨k, v⟩ := a
    simp only [List.map_cons, List.mem_cons, not_or] at h
    simp [assocSet, h.1, ih h.2]

theorem newFormation.rowsLoop_eq (rows : List (Option Process))
    (f : List (ProcessType × Option Process)) (h : NoNilRow rows) :
    newFormation.loop rows f = some (newFormation.built rows f) := by
  induction rows generalizing f with
  | nil => rfl
  | cons r rest ih =>
    have hrest : NoNilRow rest := fun x hx => h x (List.mem_cons_of_mem _ hx)
    cases r with
    | none => exact absurd rfl (h none (List.mem_cons_self _ _))
    | some pp => exact ih _ hrest

theorem newFormation.eq_rowsBuilt (rows : List (Option Process)) (h : NoNilRow rows) :
    newFormation rows = some (GoMap.table (newFormation.built rows [])) := by
  simp [newFormation, newFormation.rowsLoop_eq rows [] h]

theorem newFormation.built_append (a b : List (Option Process))
    (f : List (ProcessType × Option Process)) :
    newFormation.built (a ++ b) f = newFormation.built b (newFormation.built a f) := by
  induction a generalizing f with
  | nil => rfl
  | cons r rest ih =>
    cases r with
    | none => exact ih f
    | some pp => exact ih _

theorem newFormation.mem_keys_rowsBuilt (rows : List (Option Process))
    (f : List (ProcessType × Option Process)) (t : ProcessType) :
    t ∈ (newFormation.built rows f).map Prod.fst ↔
      t ∈ f.map Prod.fst ∨ ∃ p, some p ∈ rows ∧ p.Type_ = t := by
  induction rows generalizing f with
  | nil => simp [newFormation.built]
  | cons r rest ih =>
    cases r with
    | none =>
      rw [newFormation.built, ih]
      simp
    | some pp =>
      rw [newFormation.built, ih, mem_keys_assocSet]
      constructor
      · rintro ((h | h) | ⟨p, hp, hpt⟩)
        · exact Or.inr ⟨pp, List.mem_cons_self _ _, h.symm⟩
        · exact Or.inl h
        · exact Or.inr ⟨p, List.mem_cons_of_mem _ hp, hpt⟩
      · rintro (h | ⟨p, hp, hpt⟩)
        · exact Or.inl (Or.inr h)
        · rcases List.mem_cons.1 hp with h1 | h1
          · cases h1
            exact Or.inl (Or.inl hpt.symm)
          · exact Or.inr ⟨p, h1, hpt⟩

theorem newFormation.nodup_keys_rowsBuilt (rows : List (Option Process))
    (f : List (ProcessType × Option Process)) (hf : (f.map Prod.fst).Nodup) :
    ((newFormation.built rows f).map Prod.fst).Nodup := by
  induction rows generalizing f with
  | nil => exact hf
  | cons r rest ih =>
    cases r with
    | none => exact ih f hf
    | some pp => exact ih _ (nodup_keys_assocSet f _ _ hf)

theorem newFormation.get_rowsBuilt_of_not_mem (rows : List (Option Process))
    (f : List (ProcessType × Option Process)) (t : ProcessType)
    (h : ∀ p, some p ∈ rows → p.Type_ ≠ t) :
    assocGet (newFormation.built rows f) t = assocGet f t := by
  induction rows generalizing f with
  | nil => rfl
  | cons r rest ih =>
    have hrest : ∀ p, some p ∈ rest → p.Type_ ≠ t :=
      fun p hp => h p (List.mem_cons_of_mem _ hp)
    cases r with
    | none => exact ih f hrest
    | some pp =>
      have hne : t ≠ pp.Type_ := fun e => h pp (List.mem_cons_self _ _) e.symm
      rw [newFormation.built, ih _ hrest, assocGet_assocSet_ne _ _ _ _ hne]

theorem newFormation.invariant_rowsBuilt (rows : List (Option Process))
    (f : List (ProcessType × Option Process))
    (hf : ∀ e ∈ f, e.2.map (fun p => p.Type_) = some e.1) :
    ∀ e ∈ newFormation.built rows f, e.2.map (fun p => p.Type_) = some e.1 := by
  induction rows generalizing f with
  | nil => exact hf
  | cons r rest ih =>
    cases r with
    | none => exact ih f hf
    | some pp =>
      apply ih
      intro e he
      rcases mem_assocSet f _ _ e he with h | h
      · rw [h]
        rfl
      · exact hf e h

theorem NewFormation.entry_Type (f : Formation) (t : ProcessType) (cmd : Command) :
    (NewFormation.entry f t cmd).Type_ = t := by
  unfold NewFormation.entry
  split <;> rfl

theorem NewFormation.mem_built (f : Formation) (es : List (ProcessType × Command))
    (ps : List (ProcessType × Option Process)) (e : ProcessType × Option Process)
    (he : e ∈ NewFormation.built f es ps) :
    e ∈ ps ∨ ∃ cmd, e = (e.1, some (NewFormation.entry f e.1 cmd)) := by
  induction es generalizing ps with
  | nil => exact Or.inl he
  | cons a rest ih =>
    obtain ⟨t, cmd⟩ := a
    rcases ih _ he with h | h
    · rcases mem_assocSet ps _ _ e h with h1 | h1
      · exact Or.inr ⟨cmd, by rw [h1]⟩
      · exact Or.inl h1
    · exact Or.inr h

theorem NewFormation.invariant_built (f : Formation) (es : List (ProcessType × Command)) :
    Formation.Invariant (GoMap.table (NewFormation.built f es [])) := by
  intro e he
  rcases NewFormation.mem_built f es [] e he with h | ⟨cmd, h⟩
  · simp at h
  · rw [h]
    show Option.map _ (some _) = some e.1
    rw [Option.map_some', NewFormation.entry_Type]

theorem Formation.Invariant.noNilEntry (f : Formation) (h : f.Invariant) : f.NoNilEntry := by
  intro e he hn
  have := h e he
  rw [hn] at this
  exact Option.noConfusion this

theorem Formation.Processes.collect_eq (es : List (ProcessType × Option Process))
    (acc : List (Option Process)) :
    Formation.Processes.loop es acc = acc ++ es.map Prod.snd := by
  induction es generalizing acc with
  | nil => simp [Formation.Processes.loop]
  | cons a rest ih =>
    obtain ⟨t, p⟩ := a
    simp [Formation.Processes.loop, ih]

theorem Formation.Processes_eq (f : Formation) : f.Processes = f.entries.map Prod.snd := by
  simp [Formation.Processes, Formation.Processes.collect_eq]

theorem newFormation.built_values (es acc : List (ProcessType × Option Process))
    (hinv : ∀ e ∈ es, e.2.map (fun p => p.Type_) = some e.1)
    (hnd : ((acc ++ es).map Prod.fst).Nodup) :
    newFormation.built (es.map Prod.snd) acc = acc ++ es := by
  induction es generalizing acc with
  | nil => simp [newFormation.built]
  | cons a rest ih =>
    obtain ⟨t, p⟩ := a
    have ha := hinv (t, p) (List.mem_cons_self _ _)
    cases p with
    | none => exact Option.noConfusion ha
    | some pp =>
      have ht : pp.Type_ = t := Option.some.inj ha
      have hnot : t ∉ acc.map Prod.fst := by
        intro hmem
        rw [List.map_append, List.nodup_append] at hnd
        exact hnd.2.2 hmem (by simp)
      have hnd2 : (((acc ++ [(t, some pp)]) ++ rest).map Prod.fst).Nodup := by
        simpa using hnd
      simp only [List.map_cons, newFormation.built, ht, assocSet_of_not_mem acc t _ hnot]
      rw [ih _ (fun e he => hinv e (List.mem_cons_of_mem _ he)) hnd2]
      simp

theorem NewFormation.built_congr (f g : Formation) (es : List (ProcessType × Command))
    (ps : List (ProcessType × Option Process))
    (h : ∀ e ∈ es, NewFormation.entry f e.1 e.2 = NewFormation.entry g e.1 e.2) :
    NewFormation.built f es ps = NewFormation.built g es ps := by
  induction es generalizing ps with
  | nil => rfl
  | cons a rest ih =>
    obtain ⟨t, cmd⟩ := a
    have ha := h (t, cmd) (List.mem_cons_self _ _)
    simp only at ha
    simp only [NewFormation.built, ha]
    exact ih _ (fun e he => h e (List.mem_cons_of_mem _ he))

/-- Reconciling against a formation that already holds the reconciled process
of type `t` gives the same process again. -/
theorem NewFormation.entry_idem (f g : Formation) (t : ProcessType) (cmd cmd1 : Command)
    (hg : g.get t = some (some (NewFormation.entry f t cmd1))) :
    NewFormation.entry g t cmd = NewFormation.entry f t cmd := by
  rw [NewFormation.entry_of_get g t cmd _ hg]
  unfold NewFormation.entry
  rcases f.get t with _ | (_ | e) <;> rfl

/-! ## Formations: the invariant, `newFormation` and `Processes` -/

/-- C15. The invariant holds for every formation that is built: for a prior
formation `F` whose entries point to processes, whether or not `F` satisfies
the invariant, and every command map `C`, every entry `(t, p)` of
`NewFormation(F, C)` has `p.Type == t`; and for rows that point to processes
every entry `(t, p)` of `newFormation(rows)` has `p.Type == t`. -/
theorem Formation_invariant (F : Formation) (C : CommandMap) (rows : List (Option Process))
    (hF : F.NoNilEntry) (hrows : NoNilRow rows) :
    (∃ R, NewFormation F C = some R ∧ R.Invariant) ∧
      (∃ R, newFormation rows = some R ∧ R.Invariant) :=
  ⟨⟨_, NewFormation.eq_built F hF C, NewFormation.invariant_built F C.entries⟩,
    ⟨_, newFormation.eq_rowsBuilt rows hrows,
      newFormation.invariant_rowsBuilt rows [] (fun _ h => absurd h (List.not_mem_nil _))⟩⟩

/-- Witness of C15: a prior formation that breaks the invariant, and rows with
a repeated type. -/
theorem Formation_invariant_witness :
    mislabelledExample.NoNilEntry ∧ ¬ mislabelledExample.Invariant ∧ NoNilRow rowsExample ∧
      (∃ R, NewFormation mislabelledExample commandsExample = some R ∧ R.Invariant) ∧
      (∃ R, newFormation rowsExample = some R ∧ R.Invariant) :=
  ⟨by decide, by decide, by decide,
    Formation_invariant mislabelledExample commandsExample rowsExample (by decide) (by decide)⟩

/-- C16. For rows that point to processes, `newFormation(rows)` is a map whose
keys are exactly the `Type` values that occur in the rows, and the entry of a
type is the last row of that type: a row followed by no row of its type is
the entry of its type. -/
theorem newFormation_last_wins (rows : List (Option Process)) (hrows : NoNilRow rows) :
    ∃ R, newFormation rows = some R ∧ R.WellFormed ∧
      (∀ t, t ∈ R.keys ↔ ∃ p, some p ∈ rows ∧ p.Type_ = t) ∧
      (∀ pre p post, rows = pre ++ some p :: post →
        (∀ q, some q ∈ post → q.Type_ ≠ p.Type_) → R.get p.Type_ = some (some p)) := by
  refine ⟨_, newFormation.eq_rowsBuilt rows hrows,
    newFormation.nodup_keys_rowsBuilt rows [] List.nodup_nil, ?_, ?_⟩
  · intro t
    show t ∈ (newFormation.built rows []).map Prod.fst ↔ _
    rw [newFormation.mem_keys_rowsBuilt]
    simp
  · intro pre p post hsplit hlast
    show assocGet (newFormation.built rows []) p.Type_ = _
    rw [hsplit, newFormation.built_append, newFormation.built,
      newFormation.get_rowsBuilt_of_not_mem post _ _ hlast, assocGet_assocSet_self]

/-- Witness of C16: of the two `web` rows the later one, with quantity 5, is
the entry of `web`. -/
theorem newFormation_last_wins_witness :
    NoNilRow rowsExample ∧
      ∃ R, newFormation rowsExample = some R ∧ R.WellFormed ∧
        (∀ t, t ∈ R.keys ↔ ∃ p, some p ∈ rowsExample ∧ p.Type_ = t) ∧
        (∀ pre p post, rowsExample = pre ++ some p :: post →
          (∀ q, some q ∈ post → q.Type_ ≠ p.Type_) → R.get p.Type_ = some (some p)) :=
  ⟨by decide, newFormation_last_wins rowsExample (by decide)⟩

/-- The formation rebuilt from `rowsExample`. -/
theorem newFormation_rowsExample :
    newFormation rowsExample =
      some (GoMap.table
        [("web", some ⟨"r1", "p3", "web", 5, "./web -p", 0, ConstraintsPX⟩),
         ("worker", some ⟨"r1", "p2", "worker", 2, "./worker", 0, Constraints2X⟩)]) := by
  decide

/-- C17. For a formation `f` with distinct keys in which every entry `(t, p)`
has `p.Type == t`, `f.Processes()` is the list of the processes of the entries
of `f`, one for each key, and `newFormation(f.Processes())` has the entries of
`f`, in whatever order `f` is visited. A formation that breaks the invariant
need not be rebuilt: `mislabelledExample` comes back with the key `worker` in
place of `web`. -/
theorem Processes_newFormation_inverse (f : Formation) (hwf : f.WellFormed)
    (hinv : f.Invariant) :
    f.Processes = f.entries.map Prod.snd ∧ f.Processes.length = f.keys.length ∧
      (∃ R, newFormation f.Processes = some R ∧ R.entries = f.entries) ∧
      (mislabelledExample.WellFormed ∧ ¬ mislabelledExample.Invariant ∧
        ∃ R, newFormation mislabelledExample.Processes = some R ∧
          R.get "web" = none ∧ mislabelledExample.get "web" ≠ none) := by
  refine ⟨Formation.Processes_eq f, by simp [Formation.Processes_eq, GoMap.keys], ?_, ?_⟩
  · have hrows : NoNilRow f.Processes := by
      intro r hr hn
      rw [Formation.Processes_eq] at hr
      obtain ⟨e, he, her⟩ := List.mem_map.1 hr
      exact (Formation.Invariant.noNilEntry f hinv) e he (her.trans hn)
    refine ⟨_, newFormation.eq_rowsBuilt _ hrows, ?_⟩
    show newFormation.built f.Processes [] = f.entries
    rw [Formation.Processes_eq, newFormation.built_values f.entries [] hinv (by simpa using hwf)]
    rfl
  · exact ⟨by decide, by decide,
      GoMap.table [("worker", some ⟨"r1", "p1", "worker", 1, "./worker", 0, Constraints1X⟩)],
      by decide, by decide, by decide⟩

/-- Witness of C17: `priorExample` satisfies the invariant and comes back from
its processes. -/
theorem Processes_newFormation_inverse_witness :
    priorExample.WellFormed ∧ priorExample.Invariant ∧
      priorExample.Processes = priorExample.entries.map Prod.snd ∧
      priorExample.Processes.length = priorExample.keys.length ∧
      (∃ R, newFormation priorExample.Processes = some R ∧
        R.entries = priorExample.entries) ∧
      (mislabelledExample.WellFormed ∧ ¬ mislabelledExample.Invariant ∧
        ∃ R, newFormation mislabelledExample.Processes = some R ∧
          R.get "web" = none ∧ mislabelledExample.get "web" ≠ none) :=
  ⟨by decide, by decide, Processes_newFormation_inverse priorExample (by decide) (by decide)⟩

/-! ## Reconciliation: idempotence and what it reads -/

/-- C18. For a prior formation `F` whose entries point to processes and every
command map `C`, reconciling the result of `NewFormation(F, C)` against `C`
once more returns the same formation: the same keys, and for each key a
process equal in every field. -/
theorem NewFormation_idempotent (F : Formation) (C : CommandMap) (hF : F.NoNilEntry) :
    ∃ R, NewFormation F C = some R ∧ NewFormation R C = some R ∧
      ∀ R2, NewFormation R C = some R2 →
        (∀ t, t ∈ R2.keys ↔ t ∈ R.keys) ∧ ∀ t, R2.get t = R.get t := by
  have hR : Formation.NoNilEntry (GoMap.table (NewFormation.built F C.entries [])) :=
    Formation.Invariant.noNilEntry _ (NewFormation.invariant_built F C.entries)
  have hsame : NewFormation (GoMap.table (NewFormation.built F C.entries [])) C =
      some (GoMap.table (NewFormation.built F C.entries [])) := by
    rw [NewFormation.eq_built _ hR C]
    congr 2
    apply NewFormation.built_congr
    intro e he
    obtain ⟨cmd1, _, hget⟩ := NewFormation.get_built_of_mem F C.entries [] e.1
      (List.mem_map.2 ⟨e, he, rfl⟩)
    exact NewFormation.entry_idem F _ e.1 e.2 cmd1 hget
  refine ⟨_, NewFormation.eq_built F hF C, hsame, ?_⟩
  intro R2 hR2
  rw [hsame] at hR2
  cases hR2
  exact ⟨fun _ => Iff.rfl, fun _ => rfl⟩

/-- Witness of C18 on the release that drops `clock` and adds `worker`. -/
theorem NewFormation_idempotent_witness :
    priorExample.NoNilEntry ∧
      ∃ R, NewFormation priorExample commandsExample = some R ∧
        NewFormation R commandsExample = some R ∧
        ∀ R2, NewFormation R commandsExample = some R2 →
          (∀ t, t ∈ R2.keys ↔ t ∈ R.keys) ∧ ∀ t, R2.get t = R.get t :=
  ⟨by decide, NewFormation_idempotent priorExample commandsExample (by decide)⟩

/-- C19. For every command map `C` and prior formations `F1` and `F2` whose
entries point to processes, that hold the same types among the keys of `C` and
agree on the quantity and the constraints of each of them, `NewFormation`
returns the same formation on `F1` and on `F2`; every process of it has an
empty `ReleaseID`, an empty `ID` and port 0. -/
theorem NewFormation_reads_scale_only (F1 F2 : Formation) (C : CommandMap)
    (h1 : F1.NoNilEntry) (h2 : F2.NoNilEntry)
    (hkeys : ∀ t ∈ C.keys, t ∈ F1.keys ↔ t ∈ F2.keys)
    (hagree : ∀ t ∈ C.keys, ∀ p1 p2, F1.get t = some (some p1) → F2.get t = some (some p2) →
      p1.Quantity = p2.Quantity ∧ p1.Constraints = p2.Constraints) :
    ∃ R, NewFormation F1 C = some R ∧ NewFormation F2 C = some R ∧
      ∀ e ∈ R.entries, ∃ p, e.2 = some p ∧ p.ReleaseID = "" ∧ p.ID = "" ∧ p.Port = 0 := by
  have hentry : ∀ e ∈ C.entries,
      NewFormation.entry F1 e.1 e.2 = NewFormation.entry F2 e.1 e.2 := by
    intro e he
    have hk : e.1 ∈ C.keys := List.mem_map.2 ⟨e, he, rfl⟩
    have hiff := hkeys e.1 hk
    rw [← not_iff_not, ← GoMap.get_eq_none_iff, ← GoMap.get_eq_none_iff] at hiff
    rcases hg1 : F1.get e.1 with _ | (_ | p1)
    · rw [NewFormation.entry_of_get_none F1 _ _ hg1,
        NewFormation.entry_of_get_none F2 _ _ (hiff.1 hg1)]
    · exact absurd hg1 (h1.get_ne F1 e.1)
    · rcases hg2 : F2.get e.1 with _ | (_ | p2)
      · rw [hiff.2 hg2] at hg1
        exact Option.noConfusion hg1
      · exact absurd hg2 (h2.get_ne F2 e.1)
      · obtain ⟨hq, hc⟩ := hagree e.1 hk p1 p2 hg1 hg2
        rw [NewFormation.entry_of_get F1 _ _ p1 hg1, NewFormation.entry_of_get F2 _ _ p2 hg2,
          hq, hc]
  refine ⟨_, NewFormation.eq_built F1 h1 C, ?_, ?_⟩
  · rw [NewFormation.eq_built F2 h2 C, NewFormation.built_congr F1 F2 C.entries [] hentry]
  · intro e he
    rcases NewFormation.mem_built F1 C.entries [] e he with h | ⟨cmd, h⟩
    · simp at h
    · refine ⟨_, by rw [h], ?_⟩
      unfold NewFormation.entry
      split <;> exact ⟨rfl, rfl, rfl⟩

/-- Witness of C19: `priorVariant` differs from `priorExample` in the release,
the identifiers, the commands, the ports, the type recorded in the `web`
process and the types the release does not name. -/
theorem NewFormation_reads_scale_only_witness :
    priorExample.NoNilEntry ∧ priorVariant.NoNilEntry ∧
      (∃ R, NewFormation priorExample commandsExample = some R ∧
        NewFormation priorVariant commandsExample = some R ∧
        ∀ e ∈ R.entries, ∃ p, e.2 = some p ∧ p.ReleaseID = "" ∧ p.ID = "" ∧ p.Port = 0) :=
  ⟨by decide, by decide,
    NewFormation_reads_scale_only priorExample priorVariant commandsExample
      (by decide) (by decide) (by decide)
      (by
        intro t ht p1 p2 hp1 hp2
        have hcases : t = "web" ∨ t = "worker" := by
          simpa [commandsExample, GoMap.keys, GoMap.entries] using ht
        rcases hcases with rfl | rfl
        · have e1 : priorExample.get "web" =
              some (some ⟨"r1", "p1", "web", 3, "./old-web", 8080, Constraints2X⟩) := by decide
          have e2 : priorVariant.get "web" =
              some (some ⟨"r7", "p8", "www", 3, "./other-web", 5000, Constraints2X⟩) := by
            decide
          rw [e1] at hp1
          rw [e2] at hp2
          cases hp1
          cases hp2
          exact ⟨rfl, rfl⟩
        · have e1 : priorExample.get "worker" = none := by decide
          rw [e1] at hp1
          exact Option.noConfusion hp1)⟩

/-! ## Constraints: `UnmarshalJSON` -/

/-- Counterexample to C20: the input `null` is not a JSON string, yet
`json.Unmarshal` accepts it, leaving the string empty and reporting no error,
so `UnmarshalJSON` takes it for the empty spec and returns a nil error, not an
error; the receiver keeps its value. -/
theorem UnmarshalJSON_null_counterexample :
    json.Unmarshal ['n', 'u', 'l', 'l'] = ("", none) ∧
      Constraints.UnmarshalJSON json.Unmarshal constraints.Parse Constraints1X
        ['n', 'u', 'l', 'l'] = (Constraints1X, none) ∧
      (Constraints.UnmarshalJSON json.Unmarshal constraints.Parse Constraints1X
        ['n', 'u', 'l', 'l']).2 = none := by
  decide

/-- C20, amended. For every decoder `unmarshal`, generic parser `parse`,
receiver `c` and input `b`: when the decoder reports an error, `UnmarshalJSON`
returns that error and the receiver keeps its value; when the input decodes to
the empty spec, it returns a nil error and the receiver keeps its value; when
`parseConstraints` fails on the decoded spec, it returns that error and the
receiver keeps its value; when `parseConstraints` returns a value, the receiver
becomes that value and the error is nil. So the receiver changes only on a
parse that returns a value. With the decoder `json.Unmarshal`, the input `null`
decodes to the empty spec: a nil error, and the receiver keeps its value. -/
theorem UnmarshalJSON_receiver (unmarshal : List Char → GoString × Option GoError)
    (parse : GoString → Constraints × Option GoError) (c : Constraints) (b : List Char) :
    (∀ s err, unmarshal b = (s, some err) →
        Constraints.UnmarshalJSON unmarshal parse c b = (c, some err)) ∧
      (unmarshal b = ("", none) →
        Constraints.UnmarshalJSON unmarshal parse c b = (c, none)) ∧
      (∀ s v err, unmarshal b = (s, none) → parseConstraints parse s = (v, some err) →
        Constraints.UnmarshalJSON unmarshal parse c b = (c, some err)) ∧
      (∀ s cc, unmarshal b = (s, none) → parseConstraints parse s = (some cc, none) →
        Constraints.UnmarshalJSON unmarshal parse c b = (cc, none)) ∧
      ((Constraints.UnmarshalJSON unmarshal parse c b).1 ≠ c →
        ∃ s cc, unmarshal b = (s, none) ∧ parseConstraints parse s = (some cc, none) ∧
          Constraints.UnmarshalJSON unmarshal parse c b = (cc, none)) ∧
      Constraints.UnmarshalJSON json.Unmarshal parse c ['n', 'u', 'l', 'l'] = (c, none) := by
  refine ⟨?_, ?_, ?_, ?_, ?_, ?_⟩
  · intro s err h
    simp [Constraints.UnmarshalJSON, h]
  · intro h
    simp [Constraints.UnmarshalJSON, h, parseConstraints]
  · intro s v err h hp
    simp [Constraints.UnmarshalJSON, h, hp]
  · intro s cc h hp
    simp [Constraints.UnmarshalJSON, h, hp]
  · intro hne
    rcases hu : unmarshal b with ⟨s, _ | err⟩
    · rcases hp : parseConstraints parse s with ⟨_ | cc, _ | err⟩
      · simp [Constraints.UnmarshalJSON, hu, hp] at hne
      · simp [Constraints.UnmarshalJSON, hu, hp] at hne
      · exact ⟨s, cc, rfl, hp, by simp [Constraints.UnmarshalJSON, hu, hp]⟩
      · simp [Constraints.UnmarshalJSON, hu, hp] at hne
    · simp [Constraints.UnmarshalJSON, hu] at hne
  · have hnull : json.Unmarshal ['n', 'u', 'l', 'l'] = ("", none) := by decide
    simp [Constraints.UnmarshalJSON, hnull, parseConstraints]

/-- Witness of C20, with the decoder `json.Unmarshal` and a receiver holding
1X: the number `7` is an error of the decoder and `"not-a-spec"` is an error
of the parser, both leave 1X; `""` leaves 1X without an error; `"2X"`, also
with white space around it, sets the receiver to 2X. -/
theorem UnmarshalJSON_receiver_witness :
    Constraints.UnmarshalJSON json.Unmarshal constraints.Parse Constraints1X ['7'] =
        (Constraints1X, some json.errNotString) ∧
      Constraints.UnmarshalJSON json.Unmarshal constraints.Parse Constraints1X
        [Char.ofNat 34, Char.ofNat 34] = (Constraints1X, none) ∧
      Constraints.UnmarshalJSON json.Unmarshal constraints.Parse Constraints1X
        (Char.ofNat 34 :: "not-a-spec".data ++ [Char.ofNat 34]) =
          (Constraints1X, some constraints.ErrInvalidConstraint) ∧
      Constraints.UnmarshalJSON json.Unmarshal constraints.Parse Constraints1X
        [' ', Char.ofNat 34, '2', 'X', Char.ofNat 34, Char.ofNat 10] = (Constraints2X, none) :=
  ⟨(UnmarshalJSON_receiver json.Unmarshal constraints.Parse Constraints1X ['7']).1
      "" json.errNotString (by decide),
    (UnmarshalJSON_receiver json.Unmarshal constraints.Parse Constraints1X
      [Char.ofNat 34, Char.ofNat 34]).2.1 (by decide),
    (UnmarshalJSON_receiver json.Unmarshal constraints.Parse Constraints1X
      (Char.ofNat 34 :: "not-a-spec".data ++ [Char.ofNat 34])).2.2.1
      "not-a-spec" none constraints.ErrInvalidConstraint (by decide) (by decide),
    (UnmarshalJSON_receiver json.Unmarshal constraints.Parse Constraints1X
      [' ', Char.ofNat 34, '2', 'X', Char.ofNat 34, Char.ofNat 10]).2.2.2.1 "2X" Constraints2X
      (by decide) (by decide)⟩

/-- The decoder `json.Unmarshal` on string literals with escapes: `\u0032X`
between double quotes decodes to `2X`, and the escape of U+00E9 to the two
bytes of its UTF-8 encoding. -/
theorem json_Unmarshal_escapes :
    json.Unmarshal [Char.ofNat 34, Char.ofNat 92, 'u', '0', '0', '3', '2', 'X', Char.ofNat 34] =
        ("2X", none) ∧
      json.Unmarshal [Char.ofNat 34, Char.ofNat 92, 'u', '0', '0', 'e', '9', Char.ofNat 34] =
        (String.mk [Char.ofNat 195, Char.ofNat 169], none) ∧
      json.Unmarshal [Char.ofNat 34, 'a', Char.ofNat 92, 'q', Char.ofNat 34] =
        ("", some json.errNotString) := by
  decide

/-! ## Lemmas on the codec of the command map -/

theorem hstore.step_escaped (M : List (GoString × sql.NullString)) (k v : List Char)
    (ov iq d : Bool) (b : Char) :
    hstore.step ⟨M, k, v, ov, iq, d, true⟩ b =
      ⟨M, if ov then k else k ++ [b], if ov then v ++ [b] else v, ov, iq, d, false⟩ := by
  cases ov <;> simp [hstore.step, hstore.ScanState.push]

theorem hstore.step_backslash (M : List (GoString × sql.NullString)) (k v : List Char)
    (ov iq d : Bool) :
    hstore.step ⟨M, k, v, ov, iq, d, false⟩ hstore.backslash = ⟨M, k, v, ov, iq, d, true⟩ := by
  simp [hstore.step]

theorem hstore.step_quote (M : List (GoString × sql.NullString)) (k v : List Char)
    (ov iq d : Bool) :
    hstore.step ⟨M, k, v, ov, iq, d, false⟩ hstore.quote = ⟨M, k, v, ov, !iq, true, false⟩ := by
  have h : hstore.quote ≠ hstore.backslash := by decide
  simp [hstore.step, h]

theorem hstore.step_inQuote (M : List (GoString × sql.NullString)) (k v : List Char)
    (ov d : Bool) (b : Char) (h1 : b ≠ hstore.backslash) (h2 : b ≠ hstore.quote) :
    hstore.step ⟨M, k, v, ov, true, d, false⟩ b =
      ⟨M, if ov then k else k ++ [b], if ov then v ++ [b] else v, ov, true, d, false⟩ := by
  cases ov <;> simp [hstore.step, hstore.ScanState.push, h1, h2]

/-- Inside double quotes the decoder reads an escaped text back as the text. -/
theorem hstore.scan_escape (s rest : List Char) (M : List (GoString × sql.NullString))
    (k v : List Char) (ov d : Bool) :
    hstore.scanLoop (hstore.escape s ++ rest) ⟨M, k, v, ov, true, d, false⟩ =
      hstore.scanLoop rest
        ⟨M, if ov then k else k ++ s, if ov then v ++ s else v, ov, true, d, false⟩ := by
  induction s generalizing k v with
  | nil => cases ov <;> simp [hstore.escape]
  | cons c cs ih =>
    by_cases hb : c = hstore.backslash
    · subst hb
      cases ov <;>
        simp [hstore.escape, hstore.scanLoop, hstore.step_backslash, hstore.step_escaped, ih]
    · by_cases hq : c = hstore.quote
      · subst hq
        cases ov <;>
          simp [hstore.escape, hb, hstore.scanLoop, hstore.step_backslash,
            hstore.step_escaped, ih]
      · cases ov <;>
          simp [hstore.escape, hb, hq, hstore.scanLoop,
            hstore.step_inQuote _ _ _ _ _ _ hb hq, ih]

/-- Outside double quotes the decoder reads a quoted text back as the text. -/
theorem hstore.scan_hQuote (s rest : List Char) (M : List (GoString × sql.NullString))
    (k v : List Char) (ov d : Bool) :
    hstore.scanLoop (hstore.hQuote s ++ rest) ⟨M, k, v, ov, false, d, false⟩ =
      hstore.scanLoop rest
        ⟨M, if ov then k else k ++ s, if ov then v ++ s else v, ov, false, true, false⟩ := by
  have hsplit : hstore.hQuote s ++ rest =
      hstore.quote :: (hstore.escape s ++ hstore.quote :: rest) := by
    simp [hstore.hQuote]
  rw [hsplit, hstore.scanLoop, hstore.step_quote, Bool.not_false, hstore.scan_escape,
    hstore.scanLoop, hstore.step_quote, Bool.not_true]

theorem hstore.step_eq (M : List (GoString × sql.NullString)) (k v : List Char)
    (ov d : Bool) :
    hstore.step ⟨M, k, v, ov, false, d, false⟩ '=' = ⟨M, k, v, ov, false, d, false⟩ := by
  have h1 : '=' ≠ hstore.backslash := by decide
  have h2 : '=' ≠ hstore.quote := by decide
  have h3 : ¬ ('=' = ' ' ∨ '=' = Char.ofNat 9 ∨ '=' = Char.ofNat 10 ∨ '=' = Char.ofNat 13) := by
    decide
  simp [hstore.step, h1, h2, h3]

theorem hstore.step_gt (M : List (GoString × sql.NullString)) (k v : List Char)
    (ov d : Bool) :
    hstore.step ⟨M, k, v, ov, false, d, false⟩ '>' = ⟨M, k, v, true, false, false, false⟩ := by
  have h1 : '>' ≠ hstore.backslash := by decide
  have h2 : '>' ≠ hstore.quote := by decide
  have h3 : ¬ ('>' = ' ' ∨ '>' = Char.ofNat 9 ∨ '>' = Char.ofNat 10 ∨ '>' = Char.ofNat 13) := by
    decide
  have h4 : '>' ≠ '=' := by decide
  simp [hstore.step, h1, h2, h3, h4]

theorem hstore.step_comma (M : List (GoString × sql.NullString)) (k v : List Char)
    (ov : Bool) :
    hstore.step ⟨M, k, v, ov, false, true, false⟩ ',' =
      ⟨assocSet M (String.mk k) ⟨String.mk v, true⟩, [], [], false, false, true, false⟩ := by
  have h1 : ',' ≠ hstore.backslash := by decide
  have h2 : ',' ≠ hstore.quote := by decide
  have h3 : ¬ (',' = ' ' ∨ ',' = Char.ofNat 9 ∨ ',' = Char.ofNat 10 ∨ ',' = Char.ofNat 13) := by
    decide
  have h4 : ',' ≠ '=' := by decide
  have h5 : ',' ≠ '>' := by decide
  simp [hstore.step, hstore.ScanState.store, h1, h2, h3, h4, h5]

/-- The decoder reads one encoded pair with a present value back as its key
and its value. -/
theorem hstore.scan_part (key val : GoString) (rest : List Char)
    (M : List (GoString × sql.NullString)) (d : Bool) :
    hstore.scanLoop (hstore.part (key, ⟨val, true⟩) ++ rest) ⟨M, [], [], false, false, d, false⟩ =
      hstore.scanLoop rest ⟨M, key.data, val.data, true, false, true, false⟩ := by
  have hsplit : hstore.part (key, ⟨val, true⟩) ++ rest =
      hstore.hQuote key.data ++ ('=' :: '>' :: (hstore.hQuote val.data ++ rest)) := by
    simp [hstore.part, hstore.hQuoteNull]
  rw [hsplit, hstore.scan_hQuote, hstore.scanLoop, hstore.step_eq, hstore.scanLoop,
    hstore.step_gt, hstore.scan_hQuote]
  simp

theorem hstore.join_cons_cons (p q : List Char) (l : List (List Char)) :
    hstore.join (p :: q :: l) = p ++ ',' :: hstore.join (q :: l) :=
  rfl

theorem hstore.length_join (e : GoString × sql.NullString)
    (es : List (GoString × sql.NullString)) :
    2 ≤ (hstore.join ((e :: es).map hstore.part)).length := by
  have hp : 2 ≤ (hstore.part e).length := by
    simp only [hstore.part, hstore.hQuote, List.length_append, List.length_cons]
    omega
  cases es with
  | nil => simpa [hstore.join] using hp
  | cons e1 rest =>
    rw [List.map_cons, List.map_cons, hstore.join_cons_cons, List.length_append]
    omega

/-- The decoder reads encoded pairs with present values back, one after the
other, and stores each of them. -/
theorem hstore.scan_join (es : List (GoString × sql.NullString))
    (e : GoString × sql.NullString) (M : List (GoString × sql.NullString)) (d : Bool)
    (hv : ∀ x ∈ e :: es, x.2.Valid = true) :
    (hstore.scanLoop (hstore.join ((e :: es).map hstore.part))
        ⟨M, [], [], false, false, d, false⟩).store =
      (e :: es).foldl (fun m x => assocSet m x.1 x.2) M := by
  induction es generalizing e M d with
  | nil =>
    obtain ⟨key, val, valid⟩ := e
    have hvalid : valid = true := hv _ (List.mem_cons_self _ _)
    subst hvalid
    have h := hstore.scan_part key val [] M d
    rw [List.append_nil] at h
    show (hstore.scanLoop (hstore.part (key, ⟨val, true⟩)) _).store = _
    rw [h]
    simp [hstore.scanLoop, hstore.ScanState.store]
  | cons e1 rest ih =>
    obtain ⟨key, val, valid⟩ := e
    have hvalid : valid = true := hv _ (List.mem_cons_self _ _)
    subst hvalid
    rw [List.map_cons, List.map_cons, hstore.join_cons_cons, hstore.scan_part,
      hstore.scanLoop, hstore.step_comma, ← List.map_cons,
      ih e1 _ true (fun x hx => hv x (List.mem_cons_of_mem _ hx))]
    rfl

theorem hstore.Scan_join (es : List (GoString × sql.NullString))
    (hv : ∀ x ∈ es, x.2.Valid = true) :
    hstore.Hstore.Scan (GoValue.bytes (hstore.join (es.map hstore.part))) =
      some (⟨GoMap.table (es.foldl (fun m x => assocSet m x.1 x.2) [])⟩, none) := by
  cases es with
  | nil => rfl
  | cons e rest =>
    simp only [hstore.Hstore.Scan, hstore.length_join e rest, if_true,
      hstore.scan_join rest e [] false hv]

theorem foldl_assocSet_nodup {α κ ν : Type} [DecidableEq κ] (g : α → κ × ν) (es : List α)
    (acc : List (κ × ν)) (h : ((acc ++ es.map g).map Prod.fst).Nodup) :
    es.foldl (fun m x => assocSet m (g x).1 (g x).2) acc = acc ++ es.map g := by
  induction es generalizing acc with
  | nil => simp
  | cons a rest ih =>
    have hnot : (g a).1 ∉ acc.map Prod.fst := by
      intro hmem
      rw [List.map_append, List.nodup_append] at h
      exact h.2.2 hmem (by simp)
    have h2 : (((acc ++ [g a]) ++ rest.map g).map Prod.fst).Nodup := by
      simpa using h
    rw [List.foldl_cons, assocSet_of_not_mem acc _ _ hnot, ih _ h2]
    simp

theorem assocGet_perm {κ ν : Type} [DecidableEq κ] (l1 l2 : List (κ × ν)) (h : l1.Perm l2)
    (hnd : (l1.map Prod.fst).Nodup) (x : κ) : assocGet l1 x = assocGet l2 x := by
  have hnd2 : (l2.map Prod.fst).Nodup := (h.map Prod.fst).nodup_iff.1 hnd
  cases h1 : assocGet l1 x with
  | none =>
    have hx : x ∉ l2.map Prod.fst := fun hm =>
      (assocGet_eq_none_iff l1 x).1 h1 ((h.map Prod.fst).mem_iff.2 hm)
    exact ((assocGet_eq_none_iff l2 x).2 hx).symm
  | some v =>
    exact (assocGet_of_mem_nodup l2 hnd2 x v (h.mem_iff.1 (assocGet_mem l1 x v h1))).symm

theorem CommandMap.Value.nulls_eq_foldl (es : List (ProcessType × Command))
    (m : List (GoString × sql.NullString)) :
    CommandMap.Value.loop es m =
      es.foldl (fun m x => assocSet m (x.1, (⟨x.2, true⟩ : sql.NullString)).1
        (x.1, (⟨x.2, true⟩ : sql.NullString)).2) m := by
  induction es generalizing m with
  | nil => rfl
  | cons a rest ih =>
    obtain ⟨k, v⟩ := a
    exact ih _

theorem CommandMap.Scan.pairs_eq_foldl (es : List (GoString × sql.NullString))
    (m : List (ProcessType × Command)) :
    CommandMap.Scan.loop es m =
      es.foldl (fun m x => assocSet m (x.1, x.2.Str).1 (x.1, x.2.Str).2) m := by
  induction es generalizing m with
  | nil => rfl
  | cons a rest ih =>
    obtain ⟨k, v⟩ := a
    exact ih _

theorem GoMap.entries_table {κ ν : Type} (es : List (κ × ν)) :
    (GoMap.table es).entries = es :=
  rfl

/-- With distinct keys, the loop of `CommandMap.Value` hands the pairs of the
command map to the encoder one for one, each as a present value. -/
theorem CommandMap.Value.nulls_eq_map (es : List (ProcessType × Command))
    (hnd : (es.map Prod.fst).Nodup) :
    CommandMap.Value.loop es [] = es.map CommandMap.Value.pair := by
  have hkeys : (([] ++ es.map CommandMap.Value.pair).map Prod.fst).Nodup := by
    simpa [List.map_map, Function.comp, CommandMap.Value.pair] using hnd
  have h := foldl_assocSet_nodup CommandMap.Value.pair es [] hkeys
  rw [List.nil_append] at h
  rw [CommandMap.Value.nulls_eq_foldl]
  exact h

/-- With distinct keys, the loop of `CommandMap.Scan` takes the decoded pairs
one for one. -/
theorem CommandMap.Scan.pairs_eq_map (es : List (GoString × sql.NullString))
    (hnd : (es.map Prod.fst).Nodup) :
    CommandMap.Scan.loop es [] = es.map CommandMap.Scan.pair := by
  have hkeys : (([] ++ es.map CommandMap.Scan.pair).map Prod.fst).Nodup := by
    simpa [List.map_map, Function.comp, CommandMap.Scan.pair] using hnd
  have h := foldl_assocSet_nodup CommandMap.Scan.pair es [] hkeys
  rw [List.nil_append] at h
  rw [CommandMap.Scan.pairs_eq_foldl]
  exact h

/-- The round trip on the entries of a command map with distinct keys: the
decoded map holds the entries that were encoded, in the order the two loops
met them. -/
theorem CommandMap.Scan_Value (range1 range2 :
      List (GoString × sql.NullString) → List (GoString × sql.NullString))
    (h1 : ∀ l, (range1 l).Perm l) (h2 : ∀ l, (range2 l).Perm l)
    (m d : CommandMap) (hm : m.WellFormed) :
    CommandMap.Value range1 m =
        (GoValue.bytes (hstore.join
          ((range1 (m.entries.map CommandMap.Value.pair)).map hstore.part)), none) ∧
      CommandMap.Scan range2 d (GoValue.bytes (hstore.join
          ((range1 (m.entries.map CommandMap.Value.pair)).map hstore.part))) =
        some (GoMap.table ((range2 (range1 (m.entries.map CommandMap.Value.pair))).map
          CommandMap.Scan.pair), none) ∧
      ((range2 (range1 (m.entries.map CommandMap.Value.pair))).map
          CommandMap.Scan.pair).Perm m.entries := by
  generalize hes : m.entries = es
  have hnd : (es.map Prod.fst).Nodup := by
    rw [← hes]
    exact hm
  have hkeysA : ((es.map CommandMap.Value.pair).map Prod.fst).Nodup := by
    simpa [List.map_map, Function.comp, CommandMap.Value.pair] using hnd
  have hB := h1 (es.map CommandMap.Value.pair)
  have hkeysB := ((hB.map Prod.fst).nodup_iff).2 hkeysA
  have hvalidB : ∀ e ∈ range1 (es.map CommandMap.Value.pair), e.2.Valid = true := by
    intro e he
    obtain ⟨x, _, hx⟩ := List.mem_map.1 (hB.mem_iff.1 he)
    rw [← hx]
    rfl
  have hfold : (range1 (es.map CommandMap.Value.pair)).foldl
      (fun acc x => assocSet acc x.1 x.2) [] = range1 (es.map CommandMap.Value.pair) := by
    have hk : (([] ++ (range1 (es.map CommandMap.Value.pair)).map
        (fun x : GoString × sql.NullString => x)).map Prod.fst).Nodup := by
      simpa using hkeysB
    have := foldl_assocSet_nodup (fun x : GoString × sql.NullString => x) _ [] hk
    simpa using this
  have hC := h2 (range1 (es.map CommandMap.Value.pair))
  have hkeysC := ((hC.map Prod.fst).nodup_iff).2 hkeysB
  refine ⟨?_, ?_, ?_⟩
  · unfold CommandMap.Value hstore.Hstore.Value
    rw [hes, CommandMap.Value.nulls_eq_map es hnd]
  · unfold CommandMap.Scan
    rw [hstore.Scan_join _ hvalidB, hfold]
    simp only [GoMap.entries_table, CommandMap.Scan.pairs_eq_map _ hkeysC]
  · have h3 := (hC.trans hB).map CommandMap.Scan.pair
    have hid : (es.map CommandMap.Value.pair).map CommandMap.Scan.pair = es := by
      rw [List.map_map]
      exact (List.map_congr_left (fun x _ => rfl)).trans (List.map_id _)
    rwa [hid] at h3

/-! ## Codec of the command map: the round trip -/

/-- C14. For every command map `m`, the nil and the empty one among them,
whatever its names and commands hold, and for every order in which the encoder
and `CommandMap.Scan` visit the maps they range over: `CommandMap.Value`
returns a byte slice and a nil error, every pair it hands to the encoder is a
present value, and `CommandMap.Scan` on that byte slice returns, with a nil
error and whatever the destination held, a map with the entries of `m`: the
same keys, and the same command for each key. -/
theorem CommandMap_roundtrip
    (range1 range2 : List (GoString × sql.NullString) → List (GoString × sql.NullString))
    (h1 : ∀ l, (range1 l).Perm l) (h2 : ∀ l, (range2 l).Perm l)
    (m d : CommandMap) (hm : m.WellFormed) :
    (∀ e ∈ CommandMap.Value.loop m.entries [], e.2.Valid = true) ∧
      ∃ b, CommandMap.Value range1 m = (GoValue.bytes b, none) ∧
        ∃ r, CommandMap.Scan range2 d (GoValue.bytes b) = some (r, none) ∧
          r.entries.Perm m.entries ∧ r.WellFormed ∧
          (∀ t, t ∈ r.keys ↔ t ∈ m.keys) ∧ ∀ t, r.get t = m.get t := by
  obtain ⟨hvalue, hscan, hperm⟩ := CommandMap.Scan_Value range1 range2 h1 h2 m d hm
  have hnd : (((range2 (range1 (m.entries.map CommandMap.Value.pair))).map
      CommandMap.Scan.pair).map Prod.fst).Nodup := ((hperm.map Prod.fst).nodup_iff).2 hm
  refine ⟨?_, _, hvalue, _, hscan, hperm, hnd, ?_, ?_⟩
  · intro e he
    rw [CommandMap.Value.nulls_eq_map m.entries hm] at he
    obtain ⟨x, _, hx⟩ := List.mem_map.1 he
    rw [← hx]
    rfl
  · intro t
    exact (hperm.map Prod.fst).mem_iff
  · intro t
    exact assocGet_perm _ _ hperm hnd t

/-- Witness of C14: a command map with double quotes, backslashes, commas,
blanks and `=>` in its names and commands, an empty name and the command
`NULL`, encoded in reverse order. -/
theorem CommandMap_roundtrip_witness :
    (∀ l : List (GoString × sql.NullString), l.reverse.Perm l) ∧
      (∀ l : List (GoString × sql.NullString), (id l).Perm l) ∧ quotedExample.WellFormed ∧
      (∀ e ∈ CommandMap.Value.loop quotedExample.entries [], e.2.Valid = true) ∧
      ∃ b, CommandMap.Value List.reverse quotedExample = (GoValue.bytes b, none) ∧
        ∃ r, CommandMap.Scan id commandsExample (GoValue.bytes b) = some (r, none) ∧
          r.entries.Perm quotedExample.entries ∧ r.WellFormed ∧
          (∀ t, t ∈ r.keys ↔ t ∈ quotedExample.keys) ∧ ∀ t, r.get t = quotedExample.get t :=
  ⟨List.reverse_perm, fun l => List.Perm.refl l, by decide,
    CommandMap_roundtrip List.reverse id List.reverse_perm (fun l => List.Perm.refl l)
      quotedExample commandsExample (by decide)⟩

/-- The bytes of the empty command map are the empty byte slice, which decodes
to the empty command map. -/
theorem CommandMap_roundtrip_empty :
    CommandMap.Value id (GoMap.table []) = (GoValue.bytes [], none) ∧
      CommandMap.Value id GoMap.nil = (GoValue.bytes [], none) ∧
      CommandMap.Scan id commandsExample (GoValue.bytes []) = some (GoMap.table [], none) := by
  decide

set_option maxRecDepth 8000 in
/-- The encoding of `quotedExample` in reverse order decodes to its entries,
in that order. -/
theorem CommandMap_roundtrip_quotedExample :
    CommandMap.Scan id commandsExample (CommandMap.Value List.reverse quotedExample).1 =
      some (GoMap.table quotedExample.entries.reverse, none) := by
  decide

end Empire
